import Mathlib

/-!
# gostrip: pruning a built Go tree

A verification development for `main.go` of `gostrip`.  The program clones
and builds Go into a destination directory and then deletes what is not
needed to compile programs: a fixed list of paths (`alwaysRemove`, with the
placeholders `GOOS` and `GOARCH` expanded) and the test artifacts found by a
walk of `dest/src`.

How the program is embedded:

* Strings are lists of characters.
* The standard-library functions that the program calls are embedded after
  their documented behaviour on a slash-separated host: `strings.Replace`,
  `strings.HasSuffix`, `filepath.Clean`, `filepath.Join`, `filepath.Base` and
  `filepath.Walk`.  `filepath.Walk` is the one of the current library: a
  directory is listed before the walk function is called for it, and the
  listing error, if any, is passed to that call.
* The operating system is a parameter (`Host`): `os.Stat`, `os.RemoveAll`,
  the running of a command, and the tree that the walk finds at a path.
  `main` is a function of the host, the parsed command line and the state of
  the file system; it returns the exit status, the text it wrote to standard
  error, the final state and the calls it made.
* `treeHost` is a host whose file system is one tree at the destination; the
  concrete runs and the statement about what pruning leaves are made on it.
  Its `os.Stat` follows symbolic links and fails with `ENOTDIR` below a
  non-directory; its `os.RemoveAll` removes the entry at the path and what is
  below it.  What the `cmd.exe` commands of the Windows branch do is left
  open: it is a parameter of the host.
-/

set_option autoImplicit false

namespace Gostrip

/-! ## strings -/

/-- The scanning loop of `strings.Replace(s, old, new, -1)` for a non-empty
`old`: `skip` counts the characters of a match that are still to be passed
over; with `skip = 0` the text at the cursor is compared with `old`. -/
def replaceFrom (old new : List Char) : Nat → List Char → List Char
  | _, [] => []
  | skip + 1, _ :: cs => replaceFrom old new skip cs
  | 0, c :: cs =>
    if old.isPrefixOf (c :: cs) then new ++ replaceFrom old new (old.length - 1) cs
    else c :: replaceFrom old new 0 cs

/-- Model of `strings.Replace(s, old, new, -1)`: every non-overlapping match of
`old`, found left to right, is replaced by `new`.  With an empty `old` a copy
of `new` goes before the text and after each of its characters. -/
def Replace (s old new : List Char) : List Char :=
  if old = new then s
  else if old = [] then new ++ s.flatMap (fun c => c :: new)
  else replaceFrom old new 0 s

/-- Model of `strings.HasSuffix(s, suffix)`. -/
def HasSuffix (s suffix : List Char) : Bool :=
  suffix.reverse.isPrefixOf s.reverse

/-- The number of positions of `s` at which `w` occurs. -/
def occurrences (w : List Char) : List Char → Nat
  | [] => if w.isPrefixOf [] then 1 else 0
  | c :: cs => (if w.isPrefixOf (c :: cs) then 1 else 0) + occurrences w cs

/-! ## The static removal list -/

/-- The list `alwaysRemove` of `main.go`, in source order. -/
def alwaysRemove : List String := [
  ".git",
  ".gitattributes",
  ".gitignore",
  "CONTRIBUTING.md",
  "VERSION.cache",
  "favicon.ico",
  "robots.txt",

  "api",
  "include",
  "lib",
  "misc",
  "pkg/obj",
  "test",

  "bin/dist",

  "pkg/GOOS_GOARCH/cmd",

  "pkg/tool/GOOS_GOARCH/dist",
  "pkg/tool/GOOS_GOARCH/fix",
  "pkg/tool/GOOS_GOARCH/nm",
  "pkg/tool/GOOS_GOARCH/objdump",
  "pkg/tool/GOOS_GOARCH/yacc",

  "src/cmd/dist",
  "src/cmd/fix",
  "src/cmd/nm",
  "src/cmd/objdump",
  "src/cmd/yacc",

  "src/cmd/5a",
  "src/cmd/5g",
  "src/cmd/5l",
  "src/cmd/6a",
  "src/cmd/6g",
  "src/cmd/6l",
  "src/cmd/8a",
  "src/cmd/8g",
  "src/cmd/8l",
  "src/cmd/9a",
  "src/cmd/9g",
  "src/cmd/9l",
  "src/cmd/cc",
  "src/cmd/gc",

  "src/cmd/link",
  "src/cmd/ld",
  "src/cmd/pack",

  "src/cmd/go",

  "src/all.bash",
  "src/all.bat",
  "src/all.rc",
  "src/androidtest.bash",
  "src/clean.bash",
  "src/clean.bat",
  "src/clean.rc",
  "src/make.Dist",
  "src/make.bash",
  "src/make.bat",
  "src/make.rc",
  "src/nacltest.bash",
  "src/race.bash",
  "src/race.bat",
  "src/run.bash",
  "src/run.bat",
  "src/run.rc",

  "src/lib9",
  "src/libbio",
  "src/liblink",

  "pkg/tool/GOOS_GOARCH/pprof",
  "src/cmd/pprof",

  "bin/gofmt",
  "src/cmd/gofmt",

  "doc"
]

/-- The two substitutions at the head of the first loop of `main`:
`pat = strings.Replace(pat, "GOOS", runtime.GOOS, -1)` and then
`pat = strings.Replace(pat, "GOARCH", runtime.GOARCH, -1)`. -/
def expand (goos goarch pat : List Char) : List Char :=
  Replace (Replace pat "GOOS".toList goos) "GOARCH".toList goarch

/-- The characters of the two placeholders. -/
def placeholderChars : List Char := "GOOSGOARCH".toList

/-! ## path/filepath (slash-separated) -/

/-- Model of `strings.Split(s, "/")`: the pieces of `s` between slashes. -/
def splitSlash : List Char → List (List Char)
  | [] => [[]]
  | c :: cs =>
    if c = '/' then [] :: splitSlash cs
    else
      match splitSlash cs with
      | [] => [[c]]
      | e :: es => (c :: e) :: es

/-- Model of `strings.Join(elems, "/")`. -/
def joinSlash : List (List Char) → List Char
  | [] => []
  | [e] => e
  | e :: es => e ++ '/' :: joinSlash es

/-- One path element met by the loop of `filepath.Clean`; `out` holds the
elements kept so far, the latest first.  An empty element and `.` are
dropped; `..` removes the latest kept element when there is one that is not
itself `..`, is kept when the path is not rooted, and is dropped at the root;
any other element is kept. -/
def cleanStep (rooted : Bool) (out : List (List Char)) (e : List Char) : List (List Char) :=
  if e = [] ∨ e = ['.'] then out
  else if e = ['.', '.'] then
    match out with
    | top :: rest =>
      if top ≠ ['.', '.'] then rest
      else if !rooted then e :: out
      else out
    | [] => if !rooted then [e] else []
  else e :: out

/-- Model of `filepath.Clean`, after the rules of its documentation: multiple
separators become one, `.` elements go, an inner `..` goes together with the
element before it, `..` elements that begin a rooted path go, and the empty
result is `.`. -/
def Clean (path : List Char) : List Char :=
  if path = [] then ['.']
  else
    let rooted : Bool := path.head? == some '/'
    let out := (splitSlash path).foldl (cleanStep rooted) []
    let s := (if rooted then ['/'] else []) ++ joinSlash out.reverse
    if s = [] then ['.'] else s

/-- Model of `filepath.Join(elem...)`: the elements from the first non-empty
one on are joined with slashes and the result is cleaned; when all elements
are empty the result is the empty string. -/
def Join (elem : List (List Char)) : List Char :=
  match elem.dropWhile (fun e => e.isEmpty) with
  | [] => []
  | e :: es => Clean (joinSlash (e :: es))

/-- Model of `filepath.Base`: the last element of the path, trailing slashes
removed first; `.` for the empty path and `/` for a path of slashes only. -/
def Base (path : List Char) : List Char :=
  if path = [] then ['.']
  else
    let stripped := path.reverse.dropWhile (fun c => c == '/')
    let b := (stripped.takeWhile (fun c => c != '/')).reverse
    if b = [] then ['/'] else b

/-- A file name: not empty, not `.` or `..`, and without a slash. -/
def isName (e : List Char) : Bool :=
  e != [] && e != ['.'] && e != ['.', '.'] && !e.contains '/'

/-- The path `rel` taken below the (clean) directory path `dir`: `dir/rel`,
with no doubled slash below the root `/` and no `./` below `.`. -/
def below (dir rel : List Char) : List Char :=
  if dir = ['/'] then '/' :: rel
  else if dir = ['.'] then rel
  else dir ++ '/' :: rel

/-- A relative path all of whose elements are file names. -/
def isRelNames (rel : List Char) : Bool := (splitSlash rel).all isName

/-- The path `p` lies strictly below the directory `dir`: it is the cleaned
`dir` followed by one or more file names. -/
def StrictlyUnder (dir p : List Char) : Prop :=
  ∃ rel, isRelNames rel = true ∧ p = below (Clean dir) rel

/-! ## filepath.Walk and the walk function of `main` -/

/-- The text of an error value. -/
abbrev Err := List Char

/-- What `filepath.Walk` finds at a path: a non-directory, a directory with
the entries its listing returns (in listing order), a directory whose listing
fails, or an entry on which `lstat` fails; for the last, `isDir` tells what
the entry is, which the walk does not learn (`false` when nothing is there). -/
inductive Node where
  | file (name : List Char)
  | dir (name : List Char) (kids : List Node)
  | noread (name : List Char) (err : Err)
  | nostat (name : List Char) (isDir : Bool) (err : Err)

/-- The name of an entry in its directory. -/
def Node.name : Node → List Char
  | .file n => n
  | .dir n _ => n
  | .noread n _ => n
  | .nostat n _ _ => n

/-- Whether the entry is a directory: the value of `FileInfo.IsDir()` when
`lstat` describes the entry. -/
def Node.isDir : Node → Bool
  | .dir _ _ => true
  | .noread _ _ => true
  | .nostat _ d _ => d
  | .file _ => false

/-- Whether `lstat` fails on the entry. -/
def Node.lstatFails : Node → Bool
  | .nostat _ _ _ => true
  | _ => false

/-- The error values a walk function returns: `filepath.SkipDir` or any other
error. -/
inductive WalkErr where
  | skipDir
  | other (err : Err)
  deriving DecidableEq

/-- A `filepath.WalkFunc` acting on a state `σ`: it receives the path, whether
the entry is a directory (`none` for a nil `FileInfo`) and the error met, if
any. -/
abbrev WalkFunc (σ : Type) := List Char → Option Bool → Option Err → σ → σ × Option WalkErr

mutual
/-- Model of the function `walk` of `path/filepath`: a non-directory is handed
to the walk function; a directory is listed first and handed over with the
listing error, if any (`err1 := walkFn(path, info, err)`); when there is none
and the walk function returns nil, its entries are walked in order.  An entry on which `lstat` fails is handed
over with a nil `FileInfo` and that error, as `Walk` does for the root and
the loop of `walk` for an entry of a directory. -/
def walk {σ : Type} (walkFn : WalkFunc σ) (path : List Char) : Node → σ → σ × Option WalkErr
  | .file _, s => walkFn path (some false) none s
  | .nostat _ _ err, s => walkFn path none (some err) s
  | .noread _ err, s => walkFn path (some true) (some err) s
  | .dir _ kids, s =>
    match walkFn path (some true) none s with
    | (s1, some err1) => (s1, some err1)
    | (s1, none) => walkKids walkFn path kids s1
/-- The loop of `walk` over the names of a directory.  An entry on which
`lstat` fails is handed to the walk function with that error, and an error
other than `SkipDir` ends the loop; any other entry is walked, and the error
of its walk ends the loop unless it is `SkipDir` for a directory. -/
def walkKids {σ : Type} (walkFn : WalkFunc σ) (path : List Char) :
    List Node → σ → σ × Option WalkErr
  | [], s => (s, none)
  | k :: ks, s =>
    match walk walkFn (Join [path, k.name]) k s with
    | (s1, none) => walkKids walkFn path ks s1
    | (s1, some e) =>
      if (if k.lstatFails then e != .skipDir else (!k.isDir || e != .skipDir)) then (s1, some e)
      else walkKids walkFn path ks s1
end

/-- Model of `filepath.Walk(root, fn)` on the tree found at `root`: when
`lstat` of the root fails the walk function is called once with that error;
`SkipDir` as the final result is turned into nil. -/
def Walk {σ : Type} (walkFn : WalkFunc σ) (root : List Char) (tree : Node) (s : σ) :
    σ × Option Err :=
  match walk walkFn root tree s with
  | (s1, some (.other e)) => (s1, some e)
  | (s1, _) => (s1, none)

/-- The function literal passed to `filepath.Walk` in `main`; the state is the
slice `remove`.  A nil `FileInfo` comes only together with an error. -/
def walkFn : WalkFunc (List (List Char))
  | _, _, some _, remove => (remove, none)
  | _, none, none, remove => (remove, none)
  | path, some isDir, none, remove =>
    if isDir && Base path == "testdata".toList then (remove ++ [path], some .skipDir)
    else if !isDir && HasSuffix path "_test.go".toList then (remove ++ [path], none)
    else (remove, none)

/-- The slice `remove` after the walk of `main` over the tree found at
`root`. -/
def scan (root : List Char) (tree : Node) : List (List Char) :=
  (Walk walkFn root tree []).1

/-- The first entry of a listing with the given name. -/
def findKid (name : List Char) : List Node → Option Node
  | [] => none
  | k :: ks => if k.name = name then some k else findKid name ks

/-- The entry found by following the names `names` down from `t` through
directories that can be listed. -/
def lookup : Node → List (List Char) → Option Node
  | t, [] => some t
  | .dir _ kids, n :: ns =>
    match findKid n kids with
    | some k => lookup k ns
    | none => none
  | _, _ :: _ => none

/-- The path that `walk` builds for the entry reached from `root` by the names
`names`: `filepath.Join(path, name)` at every step. -/
def pathUnder (root : List Char) (names : List (List Char)) : List Char :=
  names.foldl (fun p n => Join [p, n]) root

mutual
/-- Every name returned by a listing in the tree is a file name. -/
def Node.wellFormed : Node → Bool
  | .dir _ kids => wellFormedKids kids
  | _ => true
/-- Every entry of the list has a file name and is well formed. -/
def wellFormedKids : List Node → Bool
  | [] => true
  | k :: ks => isName k.name && k.wellFormed && wellFormedKids ks
end

/-- Whether examining the entry fails: `lstat` fails, or it is a directory
whose listing fails. -/
def Node.failing : Node → Bool
  | .noread _ _ => true
  | .nostat _ _ _ => true
  | _ => false

mutual
/-- The tree without the entries below it whose examination fails. -/
def Node.dropErrors : Node → Node
  | .dir n kids => .dir n (dropErrorsKids kids)
  | t => t
/-- The entries without those whose examination fails. -/
def dropErrorsKids : List Node → List Node
  | [] => []
  | k :: ks => if k.failing then dropErrorsKids ks else k.dropErrors :: dropErrorsKids ks
end

/-- The tree `src/pkg/foo/{foo.go, foo_test.go, testdata/{x, y_test.go}}`. -/
def sampleSrc : Node :=
  .dir "src".toList [
    .dir "pkg".toList [
      .dir "foo".toList [
        .file "foo.go".toList,
        .file "foo_test.go".toList,
        .dir "testdata".toList [.file "x".toList, .file "y_test.go".toList]]],
    .file "run.bash".toList]

mutual
/-- The paths the walk function of `main` appends while `walk` goes over the
tree `t` found at `path`. -/
def collect (path : List Char) : Node → List (List Char)
  | .file _ => if HasSuffix path "_test.go".toList then [path] else []
  | .dir _ kids =>
    if Base path == "testdata".toList then [path] else collectKids path kids
  | _ => []
/-- The paths appended while the entries `kids` of the directory `path` are
walked. -/
def collectKids (path : List Char) : List Node → List (List Char)
  | [] => []
  | k :: ks => collect (Join [path, k.name]) k ++ collectKids path ks
end

/-! ## The operating system, `osAwareRemoveAll` and `main` -/

/-- The three outcomes of `os.Stat` that the program tells apart: no error
(with `fi.Mode().IsDir()`), an error for which `os.IsNotExist` holds, and any
other error. -/
inductive StatResult where
  | ok (isDir : Bool)
  | notExist (err : Err)
  | failed (err : Err)
  deriving DecidableEq

/-- A command as built by `exec.Command`, with `cmd.Dir` (empty when unset). -/
structure Cmd where
  name : List Char
  args : List (List Char)
  dir : List Char
  deriving DecidableEq

/-- The host the program runs on: the constants `runtime.GOOS` and
`runtime.GOARCH` and, over a type `σ` of file-system states, `os.Stat`,
`(*exec.Cmd).Run`, `os.RemoveAll` and the tree that the `lstat` and directory
listing calls of `filepath.Walk` find at a path. -/
structure Host (σ : Type) where
  goos : List Char
  goarch : List Char
  stat : σ → List Char → StatResult
  run : Cmd → σ → σ × Option Err
  removeAll : List Char → σ → σ × Option Err
  tree : σ → List Char → Node

/-- A call made to the host. -/
inductive Event where
  | stat (path : List Char)
  | run (cmd : Cmd)
  | removeAll (path : List Char)
  | walk (root : List Char)
  deriving DecidableEq

/-- The state of a run: the file system, the text the program itself has
written to standard error, and the calls made so far. -/
structure World (σ : Type) where
  fs : σ
  stderr : List Char
  trace : List Event

/-- The end of a run: the exit status and the final state. -/
structure Exit (σ : Type) where
  status : Nat
  world : World σ

/-- What `flag.Parse` leaves to `main`: `os.Args[0]`, the value of `-repo`, the
positional arguments `flag.Args()`, and the text of `flag.PrintDefaults`. -/
structure Invocation where
  argv0 : List Char
  repo : List Char
  args : List (List Char)
  defaults : List Char

/-- The function `dief`: the formatted message goes to standard error and the
process exits with status 1. -/
def dief {σ : Type} (msg : List Char) (w : World σ) : Exit σ :=
  { status := 1, world := { w with stderr := w.stderr ++ msg } }

/-- The `rmdir` and `del` commands of the Windows branch of
`osAwareRemoveAll`. -/
def deleteCmd (isDir : Bool) (path : List Char) : Cmd :=
  if isDir then
    { name := "cmd.exe".toList,
      args := ["/C".toList, "rmdir".toList, "/Q".toList, "/S".toList, path], dir := [] }
  else
    { name := "cmd.exe".toList,
      args := ["/C".toList, "del".toList, "/Q".toList, "/F".toList, "/S".toList, path],
      dir := [] }

/-- The function `osAwareRemoveAll`: nil when `os.Stat` reports that the path
does not exist, the error of `os.Stat` when it is another one, and otherwise
the result of the shell command on Windows and of `os.RemoveAll` elsewhere. -/
def osAwareRemoveAll {σ : Type} (h : Host σ) (path : List Char) (w : World σ) :
    World σ × Option Err :=
  match h.stat w.fs path with
  | .notExist _ => ({ w with trace := w.trace ++ [.stat path] }, none)
  | .failed err => ({ w with trace := w.trace ++ [.stat path] }, some err)
  | .ok isDir =>
    if h.goos = "windows".toList then
      ({ w with fs := (h.run (deleteCmd isDir path) w.fs).1,
                trace := w.trace ++ [.stat path, .run (deleteCmd isDir path)] },
        (h.run (deleteCmd isDir path) w.fs).2)
    else
      ({ w with fs := (h.removeAll path w.fs).1,
                trace := w.trace ++ [.stat path, .removeAll path] },
        (h.removeAll path w.fs).2)

/-- The body shared by the two removal loops of `main`: each name goes to
`osAwareRemoveAll`, and the first error ends the run through
`dief("removing %v: %v\n", name, err)`. -/
def removeEach {σ : Type} (h : Host σ) : List (List Char) → World σ → Except (Exit σ) (World σ)
  | [], w => .ok w
  | name :: rest, w =>
    match osAwareRemoveAll h name w with
    | (w1, some err) =>
      .error (dief ("removing ".toList ++ name ++ ": ".toList ++ err ++ "\n".toList) w1)
    | (w1, none) => removeEach h rest w1

/-- The names removed by the first loop of `main`, in order: each entry of
`alwaysRemove` expanded and joined to the destination. -/
def staticNames (goos goarch dest : List Char) : List (List Char) :=
  alwaysRemove.map (fun pat => Join [dest, expand goos goarch pat.toList])

/-- The part of `main` after the build: the loop over `alwaysRemove`, the walk
of `dest/src`, and the loop over the paths collected. -/
def prune {σ : Type} (h : Host σ) (dest : List Char) (w : World σ) : Exit σ :=
  match removeEach h (staticNames h.goos h.goarch dest) w with
  | .error e => e
  | .ok w1 =>
    match Walk walkFn (Join [dest, "src".toList])
        (h.tree w1.fs (Join [dest, "src".toList])) [] with
    | (_, some err) =>
      dief ("looking for test data: ".toList ++ err ++ "\n".toList)
        { w1 with trace := w1.trace ++ [.walk (Join [dest, "src".toList])] }
    | (remove, none) =>
      match removeEach h remove
          { w1 with trace := w1.trace ++ [.walk (Join [dest, "src".toList])] } with
      | .error e => e
      | .ok w2 => { status := 0, world := w2 }

/-- The `git clone` command of `main`. -/
def cloneCmd (repo dest : List Char) : Cmd :=
  { name := "git".toList, args := ["clone".toList, repo, dest], dir := [] }

/-- The build command of `main`, run in `dest/src`. -/
def makeCmd (goos dest : List Char) : Cmd :=
  if goos = "windows".toList then
    { name := ".\\make.bat".toList, args := [], dir := Join [dest, "src".toList] }
  else
    { name := "./make.bash".toList, args := [], dir := Join [dest, "src".toList] }

/-- The function `main`, from the check of the argument count on. -/
def main {σ : Type} (h : Host σ) (inv : Invocation) (fs : σ) : Exit σ :=
  match inv.args with
  | [dest] =>
    match h.stat fs dest with
    | .ok _ =>
      dief ("destination ".toList ++ dest ++ " already exists; won't overwrite.\n".toList)
        { fs := fs, stderr := [], trace := [.stat dest] }
    | _ =>
      match h.run (cloneCmd inv.repo dest) fs with
      | (fs1, some err) =>
        dief ("cloning repo: ".toList ++ err ++ "\n".toList)
          { fs := fs1, stderr := [], trace := [.stat dest, .run (cloneCmd inv.repo dest)] }
      | (fs1, none) =>
        match h.run (makeCmd h.goos dest) fs1 with
        | (fs2, some err) =>
          dief ("building go: ".toList ++ err ++ "\n".toList)
            { fs := fs2, stderr := [],
              trace := [.stat dest, .run (cloneCmd inv.repo dest), .run (makeCmd h.goos dest)] }
        | (fs2, none) =>
          prune h dest
            { fs := fs2, stderr := [],
              trace := [.stat dest, .run (cloneCmd inv.repo dest), .run (makeCmd h.goos dest)] }
  | _ =>
    { status := 2,
      world := { fs := fs,
                 stderr := "usage: ".toList ++ inv.argv0 ++ " [flags] <destination>\n".toList
                   ++ inv.defaults,
                 trace := [] } }

/-- Whether the call `ev` is one that `osAwareRemoveAll` makes for one of the
paths `names`: its `os.Stat`, its `os.RemoveAll`, or its shell command. -/
def Event.removes (names : List (List Char)) : Event → Bool
  | .stat p => names.contains p
  | .removeAll p => names.contains p
  | .run cmd => names.any (fun p => cmd == deleteCmd true p || cmd == deleteCmd false p)
  | .walk _ => false

/-- The state in which `main` reaches its first removal loop, when the
destination is new and the clone and the build succeed. -/
def builtWorld {σ : Type} (h : Host σ) (inv : Invocation) (dest : List Char) (fs : σ) :
    World σ :=
  { fs := (h.run (makeCmd h.goos dest) (h.run (cloneCmd inv.repo dest) fs).1).1,
    stderr := [],
    trace := [.stat dest, .run (cloneCmd inv.repo dest), .run (makeCmd h.goos dest)] }

/-! ## A file system of trees

A host whose file system holds one tree, the one at the destination.  It is
the stand-in for the operating system on which the runs below are traced.
The tree is what `lstat` and the directory listings show; what `os.Stat`
answers differs from it at a symbolic link, which `os.Stat` follows. -/

/-- The relative path `rel` with `p = below dir rel`, when there is one. -/
def stripBelow (dir p : List Char) : Option (List Char) :=
  if dir = ['/'] then
    match p with
    | '/' :: rel => some rel
    | _ => none
  else if dir = ['.'] then some p
  else if (dir ++ ['/']).isPrefixOf p then some (p.drop (dir.length + 1))
  else none

/-- The names that lead from the destination to `path`: none for the
destination itself, nothing for a path that is not at or below it. -/
def resolve (dest path : List Char) : Option (List (List Char)) :=
  if Clean path = Clean dest then some []
  else
    match stripBelow (Clean dest) (Clean path) with
    | some rel => if isRelNames rel then some (splitSlash rel) else none
    | none => none

/-- The tree `t` without the entry that the names `names` lead to. -/
def removeAt : Node → List (List Char) → Node
  | t, [] => t
  | .dir nm kids, [n] => .dir nm (kids.filter (fun k => k.name != n))
  | .dir nm kids, n :: m :: ns =>
    .dir nm (kids.map (fun k => if k.name = n then removeAt k (m :: ns) else k))
  | t, _ :: _ => t

/-- The state of the file system: the tree at the destination, if the
destination exists, the paths whose removal the system refuses, and the
symbolic links: a non-directory of the tree at one of the places `links`,
given by the names that lead to it from the destination, is a symbolic link,
and with it stands what `os.Stat` finds through it: nothing (`none`), a
directory that holds nothing (`some true`) or a non-directory (`some false`).
The target of a link lies outside the tree.  A directory whose listing fails can still be
searched, unless it is at one of the places `closed`. -/
structure FS where
  tree : Option Node
  locked : List (List Char)
  links : List (List (List Char) × Option Bool) := []
  closed : List (List (List Char)) := []

/-- The entry at the names `names` below the destination. -/
def FS.entry (fs : FS) (names : List (List Char)) : Option Node :=
  fs.tree.bind (fun t => lookup t names)

/-- The recursive removal on the tree file system: refused for a locked path,
without effect for a path outside the destination. -/
def FS.remove (dest path : List Char) (fs : FS) : FS × Option Err :=
  if fs.locked.contains path then (fs, some "permission denied".toList)
  else
    match resolve dest path with
    | none => (fs, none)
    | some [] => ({ fs with tree := none }, none)
    | some (n :: ns) => ({ fs with tree := fs.tree.map (fun t => removeAt t (n :: ns)) }, none)

/-- The answer of `os.Stat` for the names `rest` below the entry `t`, which is
itself at the names `pre` below the destination.  The path is followed
through directories (`ENOENT` where a name is missing); a symbolic link is
followed: `ENOENT` when it leads nowhere, and below a link to a directory,
which holds nothing; below any other non-directory the answer is `ENOTDIR`; below
a directory whose listing fails nothing is found, or, when the directory
cannot be searched, the answer is its error; an entry on which `lstat` fails
gives that error. -/
def statAt (links : List (List (List Char) × Option Bool)) (closed : List (List (List Char))) :
    List (List Char) → Node → List (List Char) → StatResult
  | _, .nostat _ _ err, _ => .failed err
  | pre, .file _, [] =>
    match links.lookup pre with
    | some none => .notExist "no such file or directory".toList
    | some (some d) => .ok d
    | none => .ok false
  | pre, .file _, _ :: _ =>
    match links.lookup pre with
    | some none => .notExist "no such file or directory".toList
    | some (some true) => .notExist "no such file or directory".toList
    | _ => .failed "not a directory".toList
  | _, .noread _ _, [] => .ok true
  | pre, .noread _ err, _ :: _ =>
    if closed.contains pre then .failed err
    else .notExist "no such file or directory".toList
  | _, .dir _ _, [] => .ok true
  | pre, .dir _ kids, n :: ns =>
    match findKid n kids with
    | some k => statAt links closed (pre ++ [n]) k ns
    | none => .notExist "no such file or directory".toList

/-- The answer of `os.Stat` for the names `names` below the destination. -/
def FS.stat (fs : FS) (names : List (List Char)) : StatResult :=
  match fs.tree with
  | none => .notExist "no such file or directory".toList
  | some t => statAt fs.links fs.closed [] t names

/-- A host without `cmd.exe`: the command cannot be started. -/
def noShell : Cmd → FS → FS × Option Err :=
  fun _ fs => (fs, some "exec: cmd.exe: executable file not found in $PATH".toList)

/-- The tree file system as a host: `git clone` puts the tree `built` at the
destination, the build command changes nothing, `os.RemoveAll` is the
recursive removal, and what the `cmd.exe` commands of the Windows branch do
is the parameter `shell`.  A path that is not at or below the destination is
not there. -/
def treeHost (shell : Cmd → FS → FS × Option Err) (goos goarch dest : List Char)
    (built : Node) : Host FS where
  goos := goos
  goarch := goarch
  stat fs path :=
    match resolve dest path with
    | none => .notExist "no such file or directory".toList
    | some names => fs.stat names
  run cmd fs :=
    if cmd.name = "git".toList then ({ fs with tree := some built }, none)
    else if cmd.name = "cmd.exe".toList then shell cmd fs
    else (fs, none)
  removeAll path fs := FS.remove dest path fs
  tree fs root :=
    match (resolve dest root).bind fs.entry with
    | some n => n
    | none => .nostat (Base root) false "no such file or directory".toList

/-- The built tree of the second end-to-end scenario: `doc/`, `src/run.bash`,
`src/pkg/foo/foo.go`, `src/pkg/foo/foo_test.go` and `src/pkg/foo/testdata/x`. -/
def sampleBuilt : Node :=
  .dir "go".toList [
    .dir "doc".toList [.file "install.html".toList],
    .dir "src".toList [
      .dir "pkg".toList [
        .dir "foo".toList [
          .file "foo.go".toList,
          .file "foo_test.go".toList,
          .dir "testdata".toList [.file "x".toList]]],
      .file "run.bash".toList]]

/-- A run of `gostrip go` with the default repository. -/
def sampleInvocation : Invocation :=
  { argv0 := "gostrip".toList, repo := "https://go.googlesource.com/go".toList,
    args := ["go".toList], defaults := [] }

/-- Whether the entry at the names `names` below `t` is a directory; `none`
when there is no such entry. -/
def kindAt (t : Node) (names : List (List Char)) : Option Bool :=
  (lookup t names).map Node.isDir

mutual
/-- Every entry of the tree can be examined, and every listing in it returns
file names, each of them once. -/
def Node.sound : Node → Bool
  | .dir _ kids => soundKids kids
  | .file _ => true
  | _ => false
/-- The entries of a listing are sound and have distinct file names. -/
def soundKids : List Node → Bool
  | [] => true
  | k :: ks =>
    isName k.name && !(ks.map Node.name).contains k.name && k.sound && soundKids ks
end

/-- The names that lead from the destination to `path`; empty when `path` is
not below the destination. -/
def namesOf (dest path : List Char) : List (List Char) :=
  (resolve dest path).getD []

/-- Whether the entry at the names `q` is at or below one of the paths
`paths`. -/
def removedBy (dest : List Char) (paths : List (List Char)) (q : List (List Char)) : Bool :=
  paths.any (fun p => (namesOf dest p).isPrefixOf q)

/-- Whether the entry at the names `q` is at or below an expanded entry of
`alwaysRemove`. -/
def underStatic (goos goarch : List Char) (q : List (List Char)) : Bool :=
  alwaysRemove.any (fun pat => (splitSlash (expand goos goarch pat.toList)).isPrefixOf q)

/-- The entry at the names `q` is at or below a directory named `testdata`
inside `src`. -/
def underTestdata (t : Node) (q : List (List Char)) : Prop :=
  ∃ mid rest, q = "src".toList :: (mid ++ "testdata".toList :: rest) ∧
    kindAt t ("src".toList :: (mid ++ ["testdata".toList])) = some true

/-- The entry at the names `q` is a non-directory inside `src` whose name ends
in `_test.go`. -/
def isTestFile (t : Node) (q : List (List Char)) : Prop :=
  ∃ mid n, q = "src".toList :: (mid ++ [n]) ∧ HasSuffix n "_test.go".toList = true ∧
    kindAt t q = some false

/-- The host of the sample runs: linux/amd64 with the destination `go`, where
`git clone` brings the tree `built`. -/
def sampleHost (built : Node) : Host FS :=
  treeHost noShell "linux".toList "amd64".toList "go".toList built

/-- The file system before a run: no destination yet, nothing locked. -/
def emptyFS : FS := { tree := none, locked := [] }

/-- The state in which pruning starts on the tree `t`, nothing locked. -/
def startWorld (t : Node) : World FS :=
  { fs := { tree := some t, locked := [] }, stderr := [], trace := [] }

/-- A built tree with a directory `src/pkg/testdata` whose listing fails and an
entry `src/pkg/locked/a_test.go` on which `lstat` fails. -/
def unreadableBuilt : Node :=
  .dir "go".toList [
    .dir "src".toList [
      .dir "pkg".toList [
        .noread "testdata".toList "permission denied".toList,
        .dir "locked".toList [.nostat "a_test.go".toList false "permission denied".toList]]]]

/-- A built tree without a `src` directory. -/
def bareBuilt : Node :=
  .dir "go".toList [.file "README.md".toList]

/-- A built tree whose `src` directory is there but cannot be listed. -/
def closedBuilt : Node :=
  .dir "go".toList [.file "README.md".toList, .noread "src".toList "permission denied".toList]

/-- A built tree with a `.git` directory. -/
def gitBuilt : Node :=
  .dir "go".toList [.dir ".git".toList [.file "HEAD".toList], .file ".gitattributes".toList,
    .dir "src".toList [.file "make.bash".toList]]

/-- A built tree in which `doc` and `src/pkg/foo/bar_test.go` are symbolic
links; see `linkedWorld`. -/
def linkedBuilt : Node :=
  .dir "go".toList [
    .file "doc".toList,
    .dir "src".toList [
      .dir "pkg".toList [
        .dir "foo".toList [.file "bar_test.go".toList, .file "foo.go".toList]]]]

/-- The state in which pruning starts on `linkedBuilt`, its two symbolic
links leading nowhere. -/
def linkedWorld : World FS :=
  { fs := { tree := some linkedBuilt, locked := [],
            links := [(["doc".toList], none),
              (["src".toList, "pkg".toList, "foo".toList, "bar_test.go".toList], none)] },
    stderr := [], trace := [] }

/-- A tree under `src` with a directory `pkg/testdata` whose listing fails. -/
def closedTestdataSrc : Node :=
  .dir "src".toList [
    .dir "pkg".toList [
      .file "a.go".toList,
      .noread "testdata".toList "permission denied".toList]]
/-! ## Auxiliary notions of the proofs -/

/-- The result of the walk function of `main` on a tree: `SkipDir` for a
listed directory named `testdata`, nil otherwise. -/
def walkResult (path : List Char) : Node → Option WalkErr
  | .dir _ _ => if Base path == "testdata".toList then some .skipDir else none
  | _ => none

/-- The shape of the elements kept by `filepath.Clean`, the latest first: file
names on top of `n` leading `..` elements, none of these in a rooted path. -/
def KeptShape (r : Bool) (S : List (List Char)) : Prop :=
  ∃ (n : Nat) (names : List (List Char)),
    S = names.reverse ++ List.replicate n ['.', '.'] ∧
    (∀ e ∈ names, isName e = true) ∧ (r = true → n = 0)

/-- A directory path as `walk` meets it: clean, and neither `/` nor `.`. -/
def GoodDir (p : List Char) : Prop := Clean p = p ∧ p ≠ ['/'] ∧ p ≠ ['.']

/-- The names `names`, each behind a slash. -/
def flat (names : List (List Char)) : List Char :=
  (names.map (fun n => '/' :: n)).flatten

/-! ## Theorems: placeholder expansion -/

/-- A word sharing no character with `new` that starts the rewritten text
already starts the original text. -/
theorem prefix_of_replaceFrom (old new : List Char) (hnew : new ≠ []) :
    ∀ (s w : List Char), (∀ c ∈ new, c ∉ w) →
      w <+: replaceFrom old new 0 s → w <+: s := by
  intro s
  induction s with
  | nil => intro w _ h; simpa [replaceFrom] using h
  | cons c cs ih =>
    intro w hw h
    cases w with
    | nil => exact List.nil_prefix
    | cons x xs =>
      by_cases hm : old.isPrefixOf (c :: cs) = true
      · exfalso
        rw [replaceFrom, if_pos hm] at h
        cases new with
        | nil => exact hnew rfl
        | cons n ns =>
          rw [List.cons_append, List.cons_prefix_cons] at h
          exact hw n (by simp) (by simp [h.1])
      · rw [replaceFrom, if_neg hm, List.cons_prefix_cons] at h
        rw [List.cons_prefix_cons]
        exact ⟨h.1, ih xs (fun c hc hx => hw c hc (by simp [hx])) h.2⟩

theorem occurrences_cons (w : List Char) (c : Char) (cs : List Char) :
    occurrences w (c :: cs) = 0 ↔ ¬ w <+: c :: cs ∧ occurrences w cs = 0 := by
  by_cases h : w <+: c :: cs <;> simp [occurrences, h]

theorem occurrences_nil (w : List Char) (hw : w ≠ []) : occurrences w [] = 0 := by
  cases w with
  | nil => exact absurd rfl hw
  | cons x xs => simp [occurrences]

theorem occurrences_append_left (w new r : List Char) (hw : w ≠ [])
    (hd : ∀ c ∈ new, c ∉ w) (h : occurrences w r = 0) : occurrences w (new ++ r) = 0 := by
  induction new with
  | nil => simpa using h
  | cons n ns ih =>
    have ih2 := ih (fun c hc => hd c (by simp [hc]))
    cases w with
    | nil => exact absurd rfl hw
    | cons x xs =>
      rw [List.cons_append, occurrences_cons, List.cons_prefix_cons]
      exact ⟨fun e => hd n (by simp) (by simp [e.1]), ih2⟩

/-- Replacing `old` by `new` creates no occurrence of a word `w` that shares no
character with `new`; and when `w` is `old` itself none is left. -/
theorem occurrences_replaceFrom (old new w : List Char) (hw : w ≠ [])
    (hnew : new ≠ []) (hd : ∀ c ∈ new, c ∉ w) :
    ∀ (s : List Char) (k : Nat), (w = old ∨ occurrences w s = 0) →
      occurrences w (replaceFrom old new k s) = 0 := by
  intro s
  induction s with
  | nil => intro k _; cases k <;> simpa [replaceFrom] using occurrences_nil w hw
  | cons c cs ih =>
    intro k h
    have h2 : w = old ∨ occurrences w cs = 0 :=
      h.imp id (fun h => ((occurrences_cons w c cs).1 h).2)
    cases k with
    | succ k => rw [replaceFrom]; exact ih k h2
    | zero =>
      by_cases hm : old.isPrefixOf (c :: cs) = true
      · rw [replaceFrom, if_pos hm]
        exact occurrences_append_left w new _ hw hd (ih _ h2)
      · rw [replaceFrom, if_neg hm, occurrences_cons]
        refine ⟨fun hcon => ?_, ih 0 h2⟩
        have h1 : ¬ w <+: c :: cs := by
          rcases h with h | h
          · subst h; simpa using hm
          · exact ((occurrences_cons w c cs).1 h).1
        cases w with
        | nil => exact absurd rfl hw
        | cons o os =>
          rw [List.cons_prefix_cons] at hcon h1
          exact h1 ⟨hcon.1, prefix_of_replaceFrom old new hnew cs os
            (fun c hc hx => hd c hc (by simp [hx])) hcon.2⟩

/-- C4: for every pattern and all platform identifiers, the expansion of `main`
leaves no occurrence of `GOOS` and none of `GOARCH`.  A platform identifier,
a value of `runtime.GOOS` or `runtime.GOARCH`, is a non-empty word of
lower-case letters and digits; what is used of it is that it is not empty and
has none of the capital letters of `GOOS` and `GOARCH`. -/
theorem expand_no_placeholder (goos goarch pat : List Char)
    (hos : goos ≠ []) (harch : goarch ≠ [])
    (hosc : ∀ c ∈ goos, c ∉ placeholderChars)
    (harchc : ∀ c ∈ goarch, c ∉ placeholderChars) :
    occurrences "GOOS".toList (expand goos goarch pat) = 0 ∧
    occurrences "GOARCH".toList (expand goos goarch pat) = 0 := by
  have e1 : "GOOS".toList ≠ goos := by
    rintro rfl; exact hosc 'G' (by decide) (by decide)
  have e2 : "GOARCH".toList ≠ goarch := by
    rintro rfl; exact harchc 'G' (by decide) (by decide)
  have s1 : ∀ c ∈ "GOOS".toList, c ∈ placeholderChars := by decide
  have s2 : ∀ c ∈ "GOARCH".toList, c ∈ placeholderChars := by decide
  have n1 : "GOOS".toList ≠ [] := by decide
  have n2 : "GOARCH".toList ≠ [] := by decide
  have r1 : Replace pat "GOOS".toList goos = replaceFrom "GOOS".toList goos 0 pat := by
    rw [Replace, if_neg e1, if_neg n1]
  have r2 : ∀ s, Replace s "GOARCH".toList goarch = replaceFrom "GOARCH".toList goarch 0 s := by
    intro s; rw [Replace, if_neg e2, if_neg n2]
  rw [expand, r1, r2]
  constructor
  · apply occurrences_replaceFrom _ _ _ n1 harch (fun c hc hx => harchc c hc (s1 c hx))
    right
    exact occurrences_replaceFrom _ _ _ n1 hos (fun c hc hx => hosc c hc (s1 c hx)) _ _
      (Or.inl rfl)
  · exact occurrences_replaceFrom _ _ _ n2 harch (fun c hc hx => harchc c hc (s2 c hx)) _ _
      (Or.inl rfl)

theorem expand_no_placeholder_witness :
    occurrences "GOOS".toList
        (expand "linux".toList "amd64".toList "pkg/tool/GOOS_GOARCH/dist".toList) = 0 ∧
      occurrences "GOARCH".toList
        (expand "linux".toList "amd64".toList "pkg/tool/GOOS_GOARCH/dist".toList) = 0 :=
  expand_no_placeholder "linux".toList "amd64".toList "pkg/tool/GOOS_GOARCH/dist".toList
    (by decide) (by decide) (by decide) (by decide)

/-! ## Theorems: paths -/

theorem splitSlash_ne_nil (s : List Char) : splitSlash s ≠ [] := by
  cases s with
  | nil => simp [splitSlash]
  | cons c cs =>
    rw [splitSlash]
    split
    · simp
    · split <;> simp

theorem splitSlash_slash (cs : List Char) : splitSlash ('/' :: cs) = [] :: splitSlash cs := by
  simp [splitSlash]

theorem splitSlash_cons (c : Char) (cs e : List Char) (es : List (List Char)) (hc : c ≠ '/')
    (h : splitSlash cs = e :: es) : splitSlash (c :: cs) = (c :: e) :: es := by
  simp [splitSlash, hc, h]

theorem joinSlash_one (e : List Char) : joinSlash [e] = e := rfl

theorem joinSlash_cons (e e2 : List Char) (es : List (List Char)) :
    joinSlash (e :: e2 :: es) = e ++ '/' :: joinSlash (e2 :: es) := rfl

theorem splitSlash_append (a b : List Char) :
    splitSlash (a ++ '/' :: b) = splitSlash a ++ splitSlash b := by
  induction a with
  | nil => simp [splitSlash]
  | cons c a ih =>
    by_cases hc : c = '/'
    · subst hc
      rw [List.cons_append, splitSlash_slash, splitSlash_slash, ih, List.cons_append]
    · cases h : splitSlash a with
      | nil => exact absurd h (splitSlash_ne_nil a)
      | cons e es =>
        rw [List.cons_append, splitSlash_cons c _ e (es ++ splitSlash b) hc (by rw [ih, h]; rfl),
          splitSlash_cons c a e es hc h]
        rfl

theorem splitSlash_noslash (e : List Char) (h : '/' ∉ e) : splitSlash e = [e] := by
  induction e with
  | nil => simp [splitSlash]
  | cons c e ih =>
    have hc : c ≠ '/' := fun hc => h (by simp [hc])
    have he : '/' ∉ e := fun he => h (by simp [he])
    simp [splitSlash, hc, ih he]

theorem isName_iff (e : List Char) :
    isName e = true ↔ e ≠ [] ∧ e ≠ ['.'] ∧ e ≠ ['.', '.'] ∧ '/' ∉ e := by
  simp [isName, and_assoc]

theorem splitSlash_joinSlash (B : List (List Char)) (hB : B ≠ [])
    (hn : ∀ e ∈ B, '/' ∉ e) : splitSlash (joinSlash B) = B := by
  induction B with
  | nil => exact absurd rfl hB
  | cons e es ih =>
    cases es with
    | nil => simpa [joinSlash] using splitSlash_noslash e (hn e (by simp))
    | cons e2 es =>
      rw [joinSlash_cons, splitSlash_append, splitSlash_noslash e (hn e (by simp)),
        ih (by simp) (fun x hx => hn x (by simp [hx]))]
      rfl

theorem joinSlash_append (A B : List (List Char)) (hA : A ≠ []) (hB : B ≠ []) :
    joinSlash (A ++ B) = joinSlash A ++ '/' :: joinSlash B := by
  induction A with
  | nil => exact absurd rfl hA
  | cons a A ih =>
    cases A with
    | nil =>
      cases B with
      | nil => exact absurd rfl hB
      | cons b B => rfl
    | cons a2 A =>
      have ih2 := ih (by simp)
      simp only [List.cons_append] at ih2 ⊢
      rw [joinSlash_cons, ih2, joinSlash_cons]
      simp

theorem joinSlash_ne_nil (B : List (List Char)) (hB : B ≠ [])
    (hn : ∀ e ∈ B, e ≠ []) : joinSlash B ≠ [] := by
  cases B with
  | nil => exact absurd rfl hB
  | cons e es =>
    have := hn e (by simp)
    cases es with
    | nil => simpa [joinSlash] using this
    | cons e2 es => simp [joinSlash]

theorem cleanStep_name (r : Bool) (out : List (List Char)) (e : List Char)
    (h : isName e = true) : cleanStep r out e = e :: out := by
  rw [isName_iff] at h
  simp [cleanStep, h.1, h.2.1, h.2.2.1]

theorem foldl_cleanStep_names (r : Bool) (B : List (List Char))
    (hn : ∀ e ∈ B, isName e = true) :
    ∀ out, B.foldl (cleanStep r) out = B.reverse ++ out := by
  induction B with
  | nil => simp
  | cons e es ih =>
    intro out
    rw [List.foldl_cons, cleanStep_name r out e (hn e (by simp)),
      ih (fun x hx => hn x (by simp [hx]))]
    simp

/-- Every element kept by `filepath.Clean` is an element of the path that is
neither empty nor `.`. -/
theorem foldl_cleanStep_kept (r : Bool) (comps : List (List Char)) :
    ∀ out, ∀ e ∈ comps.foldl (cleanStep r) out,
      e ∈ out ∨ (e ∈ comps ∧ e ≠ [] ∧ e ≠ ['.']) := by
  induction comps with
  | nil => intro out e he; exact Or.inl (by simpa using he)
  | cons c cs ih =>
    intro out e he
    rw [List.foldl_cons] at he
    rcases ih _ e he with he | he
    · unfold cleanStep at he
      split at he
      · exact Or.inl he
      · rename_i h1
        have hc : c ≠ [] ∧ c ≠ ['.'] := by simpa [not_or] using h1
        have hpush : e ∈ c :: out → e ∈ out ∨ (e ∈ c :: cs ∧ e ≠ [] ∧ e ≠ ['.']) := by
          intro h
          rcases List.mem_cons.1 h with rfl | h
          · exact Or.inr ⟨by simp, hc⟩
          · exact Or.inl h
        split at he
        · split at he
          · split at he
            · exact Or.inl (by simp [he])
            · split at he
              · exact hpush he
              · exact Or.inl he
          · split at he
            · exact hpush (by simpa using he)
            · simp at he
        · exact hpush he
    · exact Or.inr ⟨by simp [he.1], he.2⟩

theorem splitSlash_noslash_mem (s : List Char) : ∀ e ∈ splitSlash s, '/' ∉ e := by
  induction s with
  | nil => simp [splitSlash]
  | cons c cs ih =>
    by_cases hc : c = '/'
    · subst hc
      rw [splitSlash_slash]
      intro e he
      rcases List.mem_cons.1 he with rfl | he
      · simp
      · exact ih e he
    · cases h : splitSlash cs with
      | nil => exact absurd h (splitSlash_ne_nil cs)
      | cons x xs =>
        rw [splitSlash_cons c cs x xs hc h]
        rw [h] at ih
        intro e he
        rcases List.mem_cons.1 he with rfl | he
        · have := ih x (by simp)
          simp [this, Ne.symm hc]
        · exact ih e (by simp [he])

theorem names_noslash (B : List (List Char)) (hn : ∀ e ∈ B, isName e = true) :
    ∀ e ∈ B, '/' ∉ e := fun e he => ((isName_iff e).1 (hn e he)).2.2.2

theorem names_ne_nil (B : List (List Char)) (hn : ∀ e ∈ B, isName e = true) :
    ∀ e ∈ B, e ≠ [] := fun e he => ((isName_iff e).1 (hn e he)).1

/-- The kept elements of `filepath.Clean`, the latest first. -/
theorem Clean_eq (d : List Char) (hd : d ≠ []) :
    Clean d =
      (if ((if (d.head? == some '/') = true then ['/'] else []) ++
          joinSlash ((splitSlash d).foldl (cleanStep (d.head? == some '/')) []).reverse) = []
        then ['.']
        else (if (d.head? == some '/') = true then ['/'] else []) ++
          joinSlash ((splitSlash d).foldl (cleanStep (d.head? == some '/')) []).reverse) := by
  rw [Clean, if_neg hd]

/-- Cleaning `d/rel`, for a relative path `rel` made of file names, gives `rel`
below the cleaned `d`. -/
theorem Clean_append_names (d : List Char) (hd : d ≠ []) (B : List (List Char))
    (hB : B ≠ []) (hn : ∀ e ∈ B, isName e = true) :
    Clean (d ++ '/' :: joinSlash B) = below (Clean d) (joinSlash B) := by
  have hhead : (d ++ '/' :: joinSlash B).head? = d.head? := by
    cases d with
    | nil => exact absurd rfl hd
    | cons c cs => rfl
  have hne : d ++ '/' :: joinSlash B ≠ [] := by simp
  have hjB : joinSlash B ≠ [] := joinSlash_ne_nil B hB (names_ne_nil B hn)
  rw [Clean_eq _ hne, Clean_eq d hd, hhead, splitSlash_append,
    splitSlash_joinSlash B hB (names_noslash B hn), List.foldl_append,
    foldl_cleanStep_names _ B hn, List.reverse_append, List.reverse_reverse]
  generalize hS : (splitSlash d).foldl (cleanStep (d.head? == some '/')) [] = S
  have hkept : ∀ e ∈ S, e ≠ [] ∧ e ≠ ['.'] ∧ '/' ∉ e := by
    rw [← hS]
    intro e he
    rcases foldl_cleanStep_kept _ _ [] e he with h | h
    · simp at h
    · exact ⟨h.2.1, h.2.2, splitSlash_noslash_mem d e h.1⟩
  cases hS2 : S.reverse with
  | nil =>
    by_cases hr : (d.head? == some '/') = true
    · simp [hr, joinSlash, below]
    · simp [hr, joinSlash, below, hjB]
  | cons x xs =>
    have hx : x ≠ [] ∧ x ≠ ['.'] ∧ '/' ∉ x := hkept x (by
      have : x ∈ S.reverse := by rw [hS2]; simp
      simpa using this)
    have hj : joinSlash (x :: xs) ≠ [] := by
      cases xs with
      | nil => simpa [joinSlash_one] using hx.1
      | cons y ys => rw [joinSlash_cons]; simp
    have hj1 : joinSlash (x :: xs) ≠ ['.'] := by
      cases xs with
      | nil => simpa [joinSlash_one] using hx.2.1
      | cons y ys =>
        rw [joinSlash_cons]
        intro h
        cases x with
        | nil => exact hx.1 rfl
        | cons a as => simp at h
    have hj2 : joinSlash (x :: xs) ≠ ['/'] := by
      cases xs with
      | nil =>
        rw [joinSlash_one]
        intro h
        exact hx.2.2 (by simp [h])
      | cons y ys =>
        rw [joinSlash_cons]
        intro h
        cases x with
        | nil => exact hx.1 rfl
        | cons a as => simp at h
    rw [joinSlash_append (x :: xs) B (by simp) hB]
    by_cases hr : (d.head? == some '/') = true
    · simp [hr, below, hj]
    · simp [hr, below, hj, hj1, hj2]

theorem joinSlash_cons_char (c : Char) (e : List Char) (es : List (List Char)) :
    joinSlash ((c :: e) :: es) = c :: joinSlash (e :: es) := by
  cases es <;> rfl

theorem joinSlash_splitSlash (s : List Char) : joinSlash (splitSlash s) = s := by
  induction s with
  | nil => rfl
  | cons c cs ih =>
    cases h : splitSlash cs with
    | nil => exact absurd h (splitSlash_ne_nil cs)
    | cons e es =>
      by_cases hc : c = '/'
      · subst hc
        rw [splitSlash_slash, h, joinSlash_cons, ← h, ih]
        rfl
      · rw [splitSlash_cons c cs e es hc h, joinSlash_cons_char, ← h, ih]

theorem Clean_names (B : List (List Char)) (hB : B ≠ [])
    (hn : ∀ e ∈ B, isName e = true) : Clean (joinSlash B) = joinSlash B := by
  have hj : joinSlash B ≠ [] := joinSlash_ne_nil B hB (names_ne_nil B hn)
  have hhead : (joinSlash B).head? ≠ some '/' := by
    cases B with
    | nil => exact absurd rfl hB
    | cons e es =>
      have he := (isName_iff e).1 (hn e (by simp))
      cases e with
      | nil => exact absurd rfl he.1
      | cons c cs =>
        rw [joinSlash_cons_char]
        intro h
        simp at h
        exact he.2.2.2 (by simp [h])
  have hr : ((joinSlash B).head? == some '/') = false := by simpa using hhead
  rw [Clean_eq _ hj, hr, splitSlash_joinSlash B hB (names_noslash B hn),
    foldl_cleanStep_names _ B hn]
  simp [hj]

/-- The join of `d` with a relative path made of file names is that path below
the cleaned `d`. -/
theorem Join_rel (d rel : List Char) (h : isRelNames rel = true) :
    Join [d, rel] = below (Clean d) rel := by
  have hn : ∀ e ∈ splitSlash rel, isName e = true := by
    simpa [isRelNames] using h
  have hB := splitSlash_ne_nil rel
  have hrel : rel ≠ [] := by
    have := joinSlash_ne_nil _ hB (names_ne_nil _ hn)
    rwa [joinSlash_splitSlash] at this
  cases d with
  | nil =>
    cases rel with
    | nil => exact absurd rfl hrel
    | cons c cs =>
      have := Clean_names _ hB hn
      rw [joinSlash_splitSlash] at this
      have hJ : Join [[], c :: cs] = Clean (c :: cs) := rfl
      have hC : Clean [] = ['.'] := rfl
      rw [hJ, hC, this]
      rfl
  | cons x xs =>
    have := Clean_append_names (x :: xs) (by simp) _ hB hn
    rw [joinSlash_splitSlash] at this
    simpa [Join, joinSlash] using this

/-! ## Theorems: expansion and joining of the static list -/

theorem replaceFrom_of_no_occurrence (old new : List Char) :
    ∀ s : List Char, occurrences old s = 0 → replaceFrom old new 0 s = s := by
  intro s
  induction s with
  | nil => intro _; rfl
  | cons c cs ih =>
    intro h
    rw [occurrences_cons] at h
    have hm : ¬ old.isPrefixOf (c :: cs) = true := by simpa using h.1
    rw [replaceFrom, if_neg hm, ih h.2]

theorem Replace_of_no_occurrence (s old new : List Char) (hold : old ≠ [])
    (h : occurrences old s = 0) : Replace s old new = s := by
  unfold Replace
  split
  · rfl
  · exact replaceFrom_of_no_occurrence old new s h

theorem prefix_of_prefix_append_sep (w a b : List Char) (c : Char) (hc : c ∉ w)
    (h : w <+: a ++ c :: b) : w <+: a := by
  rcases List.prefix_or_prefix_of_prefix h (List.prefix_append a (c :: b)) with h1 | h1
  · exact h1
  · obtain ⟨t, rfl⟩ := h1
    rw [List.prefix_append_right_inj] at h
    cases t with
    | nil => simp
    | cons y ys =>
      rw [List.cons_prefix_cons] at h
      exact absurd (by simp [h.1]) hc

/-- The rewriting of `a ++ c :: b` is that of `a`, then `c`, then that of `b`,
when the character `c` does not occur in `old`. -/
theorem replaceFrom_append_sep (old new : List Char) (hold : old ≠ []) (c : Char)
    (hc : c ∉ old) (b : List Char) :
    ∀ (a : List Char) (k : Nat), k ≤ a.length →
      replaceFrom old new k (a ++ c :: b)
        = replaceFrom old new k a ++ c :: replaceFrom old new 0 b := by
  intro a
  induction a with
  | nil =>
    intro k hk
    have hk0 : k = 0 := by simpa using hk
    subst hk0
    have hm : ¬ old.isPrefixOf (c :: b) = true := by
      cases old with
      | nil => exact absurd rfl hold
      | cons o os =>
        simp only [List.isPrefixOf_iff_prefix, List.cons_prefix_cons]
        intro h
        exact hc (by simp [h.1])
    rw [List.nil_append, replaceFrom.eq_3, if_neg hm]
    rfl
  | cons x a ih =>
    intro k hk
    cases k with
    | succ k =>
      rw [List.cons_append, replaceFrom, replaceFrom]
      exact ih k (by simpa using hk)
    | zero =>
      rw [List.cons_append, replaceFrom.eq_3, replaceFrom.eq_3]
      by_cases hm : old <+: x :: a
      · have hm2 : old <+: x :: (a ++ c :: b) := by
          rw [← List.cons_append]
          exact hm.trans (List.prefix_append _ _)
        have hlen : old.length - 1 ≤ a.length := by
          have := hm.length_le
          simp at this
          omega
        rw [if_pos (by simpa using hm2), if_pos (by simpa using hm), ih _ hlen]
        simp
      · have hm2 : ¬ old <+: x :: (a ++ c :: b) := by
          intro h
          apply hm
          rw [← List.cons_append] at h
          exact prefix_of_prefix_append_sep old (x :: a) b c hc h
        rw [if_neg (by simpa using hm2), if_neg (by simpa using hm), ih 0 (by simp)]
        simp

theorem mem_replaceFrom (old new : List Char) (x : Char) :
    ∀ (s : List Char) (k : Nat), x ∈ replaceFrom old new k s → x ∈ s ∨ x ∈ new := by
  intro s
  induction s with
  | nil => intro k h; cases k <;> simp [replaceFrom] at h
  | cons c cs ih =>
    intro k h
    cases k with
    | succ k =>
      rw [replaceFrom] at h
      exact (ih k h).imp_left (fun h => by simp [h])
    | zero =>
      rw [replaceFrom.eq_3] at h
      split at h
      · rcases List.mem_append.1 h with h | h
        · exact Or.inr h
        · exact (ih _ h).imp_left (fun h => by simp [h])
      · rcases List.mem_cons.1 h with h | h
        · exact Or.inl (by simp [h])
        · exact (ih _ h).imp_left (fun h => by simp [h])

/-- A character that does not occur in `old` survives the rewriting; `k`
characters of a match may still be pending, all of them characters of `old`. -/
theorem mem_replaceFrom_of_mem (old new : List Char) (hold : old ≠ []) (x : Char)
    (hx : x ∉ old) :
    ∀ (s : List Char) (k : Nat), (∀ y ∈ s.take k, y ∈ old) → x ∈ s →
      x ∈ replaceFrom old new k s := by
  intro s
  induction s with
  | nil => intro k _ h; simp at h
  | cons c cs ih =>
    intro k hk h
    cases k with
    | succ k =>
      rw [replaceFrom]
      have hc : c ∈ old := hk c (by simp)
      have hxc : x ≠ c := fun e => hx (e ▸ hc)
      refine ih k (fun y hy => hk y (by simp [hy])) ?_
      simpa [hxc] using h
    | zero =>
      rw [replaceFrom.eq_3]
      split
      · rename_i hm
        rw [List.isPrefixOf_iff_prefix] at hm
        cases old with
        | nil => exact absurd rfl hold
        | cons o os =>
          rw [List.cons_prefix_cons] at hm
          have hxc : x ≠ c := fun e => hx (by simp [e, hm.1])
          apply List.mem_append_right
          refine ih _ ?_ (by simpa [hxc] using h)
          intro y hy
          have : os = cs.take os.length := List.prefix_iff_eq_take.1 hm.2
          simp only [List.length_cons, Nat.add_sub_cancel] at hy
          rw [← this] at hy
          simp [hy]
      · rcases List.mem_cons.1 h with h | h
        · simp [h]
        · exact List.mem_cons_of_mem _ (ih 0 (by simp) h)

theorem Replace_mem (s old new : List Char) (x : Char) (h : x ∈ Replace s old new) :
    x ∈ s ∨ x ∈ new := by
  unfold Replace at h
  split at h
  · exact Or.inl h
  · split at h
    · rcases List.mem_append.1 h with h | h
      · exact Or.inr h
      · rw [List.mem_flatMap] at h
        obtain ⟨y, hy, hxy⟩ := h
        rcases List.mem_cons.1 hxy with e | e
        · exact Or.inl (e ▸ hy)
        · exact Or.inr e
    · exact mem_replaceFrom old new x s 0 h

theorem Replace_mem_of_mem (s old new : List Char) (x : Char) (hx : x ∉ old) (h : x ∈ s) :
    x ∈ Replace s old new := by
  unfold Replace
  split
  · exact h
  · split
    · apply List.mem_append_right
      rw [List.mem_flatMap]
      exact ⟨x, h, by simp⟩
    · rename_i hold
      exact mem_replaceFrom_of_mem old new hold x hx s 0 (by simp) h

/-- Rewriting a slash-separated text rewrites each of its elements, when neither
`old` nor `new` contains a slash. -/
theorem Replace_joinSlash (old new : List Char) (hold : old ≠ []) (ho : '/' ∉ old) :
    ∀ B : List (List Char), B ≠ [] → (∀ e ∈ B, '/' ∉ e) →
      Replace (joinSlash B) old new = joinSlash (B.map (fun e => Replace e old new)) := by
  by_cases heq : old = new
  · intro B _ _
    simp [Replace, heq]
  · have hR : ∀ s, Replace s old new = replaceFrom old new 0 s := by
      intro s; rw [Replace, if_neg heq, if_neg hold]
    simp only [hR]
    intro B
    induction B with
    | nil => intro h; exact absurd rfl h
    | cons e es ih =>
      intro _ hn
      cases es with
      | nil => rfl
      | cons e2 es =>
        rw [joinSlash_cons, replaceFrom_append_sep old new hold '/' ho _ e 0 (by simp),
          ih (by simp) (fun x hx => hn x (by simp [hx]))]
        rfl

theorem splitSlash_Replace (old new s : List Char) (hold : old ≠ []) (ho : '/' ∉ old)
    (hn : '/' ∉ new) :
    splitSlash (Replace s old new) = (splitSlash s).map (fun e => Replace e old new) := by
  have h := Replace_joinSlash old new hold ho (splitSlash s) (splitSlash_ne_nil s)
    (splitSlash_noslash_mem s)
  rw [joinSlash_splitSlash] at h
  rw [h, splitSlash_joinSlash]
  · simpa using splitSlash_ne_nil s
  · intro e he
    rw [List.mem_map] at he
    obtain ⟨a, ha, rfl⟩ := he
    intro hmem
    rcases Replace_mem a old new '/' hmem with h1 | h1
    · exact splitSlash_noslash_mem s a ha h1
    · exact hn h1

/-- The elements of an expanded pattern are the expanded elements of the
pattern, when the platform identifiers contain no slash. -/
theorem splitSlash_expand (goos goarch pat : List Char) (hos : '/' ∉ goos)
    (harch : '/' ∉ goarch) :
    splitSlash (expand goos goarch pat) = (splitSlash pat).map (expand goos goarch) := by
  unfold expand
  rw [splitSlash_Replace _ _ _ (by decide) (by decide) harch,
    splitSlash_Replace _ _ _ (by decide) (by decide) hos, List.map_map]
  rfl

/-- An element of a pattern that contains a character which is neither a dot
nor a letter of the placeholders expands to a file name. -/
theorem isName_expand (goos goarch e : List Char) (hos : '/' ∉ goos) (harch : '/' ∉ goarch)
    (he : '/' ∉ e) (x : Char) (hx : x ∈ e) (hxp : x ∉ placeholderChars) (hxd : x ≠ '.') :
    isName (expand goos goarch e) = true := by
  have s1 : ∀ c ∈ "GOOS".toList, c ∈ placeholderChars := by decide
  have s2 : ∀ c ∈ "GOARCH".toList, c ∈ placeholderChars := by decide
  have hmem : x ∈ expand goos goarch e :=
    Replace_mem_of_mem _ _ _ x (fun h => hxp (s2 x h))
      (Replace_mem_of_mem _ _ _ x (fun h => hxp (s1 x h)) hx)
  have hno : '/' ∉ expand goos goarch e := by
    intro h
    rcases Replace_mem _ _ _ _ h with h | h
    · rcases Replace_mem _ _ _ _ h with h | h
      · exact he h
      · exact hos h
    · exact harch h
  rw [isName_iff]
  refine ⟨?_, ?_, ?_, hno⟩
  · intro h; rw [h] at hmem; simp at hmem
  · intro h; rw [h] at hmem; simp at hmem; exact hxd hmem
  · intro h; rw [h] at hmem; simp at hmem; exact hxd hmem

/-! ## Theorems: the static list on a given host -/

theorem alwaysRemove_tool_entries :
    ∀ pat ∈ alwaysRemove, "pkg/tool/GOOS_GOARCH/".toList <+: pat.toList →
      expand "linux".toList "amd64".toList pat.toList
          = "pkg/tool/linux_amd64/".toList ++ pat.toList.drop 21 ∧
        isRelNames (expand "linux".toList "amd64".toList pat.toList) = true := by
  decide

theorem alwaysRemove_marked :
    ∀ pat ∈ alwaysRemove, ∀ e ∈ splitSlash pat.toList,
      ∃ x ∈ e, x ∉ placeholderChars ∧ x ≠ '.' := by
  decide

/-- C8 (as amended): on linux/amd64 every entry `pkg/tool/GOOS_GOARCH/<x>` of
`alwaysRemove` (these are dist, fix, nm, objdump, yacc and pprof) expands and
joins to `pkg/tool/linux_amd64/<x>` below the cleaned destination, which is
`dest + "/pkg/tool/linux_amd64/<x>"` when `dest` is already clean and neither
`/` nor `.`; and an entry without placeholder is left unchanged by the
expansion, whatever the platform identifiers. -/
theorem tool_entries_linux_amd64 (dest : List Char) :
    (∀ pat ∈ alwaysRemove, ∀ x : List Char,
      pat.toList = "pkg/tool/GOOS_GOARCH/".toList ++ x →
        Join [dest, expand "linux".toList "amd64".toList pat.toList]
            = below (Clean dest) ("pkg/tool/linux_amd64/".toList ++ x) ∧
          (Clean dest = dest → dest ≠ ['/'] → dest ≠ ['.'] →
            Join [dest, expand "linux".toList "amd64".toList pat.toList]
              = dest ++ "/pkg/tool/linux_amd64/".toList ++ x)) ∧
    ((alwaysRemove.filter
        (fun pat => "pkg/tool/GOOS_GOARCH/".toList.isPrefixOf pat.toList)).map
        (fun pat => String.mk (pat.toList.drop 21))
      = ["dist", "fix", "nm", "objdump", "yacc", "pprof"]) ∧
    (∀ pat ∈ alwaysRemove, occurrences "GOOS".toList pat.toList = 0 →
      occurrences "GOARCH".toList pat.toList = 0 →
      ∀ goos goarch : List Char, expand goos goarch pat.toList = pat.toList) := by
  refine ⟨?_, by decide, ?_⟩
  · intro pat hpat x hx
    have hpre : "pkg/tool/GOOS_GOARCH/".toList <+: pat.toList := ⟨x, hx.symm⟩
    obtain ⟨he, hn⟩ := alwaysRemove_tool_entries pat hpat hpre
    have hdrop : pat.toList.drop 21 = x := by
      rw [hx]
      exact List.drop_left' (by decide)
    have hJ := Join_rel dest _ hn
    rw [he, hdrop] at hJ
    rw [he, hdrop]
    refine ⟨hJ, fun hc h1 h2 => ?_⟩
    rw [hJ, hc, below, if_neg h1, if_neg h2]
    simp
  · intro pat _ h1 h2 goos goarch
    unfold expand
    rw [Replace_of_no_occurrence _ _ _ (by decide) h1,
      Replace_of_no_occurrence _ _ _ (by decide) h2]

theorem tool_entries_linux_amd64_witness :
    Join ["out/".toList, expand "linux".toList "amd64".toList "pkg/tool/GOOS_GOARCH/nm".toList]
        = "out/pkg/tool/linux_amd64/nm".toList ∧
      Join ["/usr/local/go".toList,
          expand "linux".toList "amd64".toList "pkg/tool/GOOS_GOARCH/nm".toList]
        = "/usr/local/go".toList ++ "/pkg/tool/linux_amd64/".toList ++ "nm".toList ∧
      expand "plan9".toList "386".toList "src/cmd/pack".toList = "src/cmd/pack".toList :=
  ⟨((tool_entries_linux_amd64 "out/".toList).1 "pkg/tool/GOOS_GOARCH/nm" (by decide)
      "nm".toList (by decide)).1,
    ((tool_entries_linux_amd64 "/usr/local/go".toList).1 "pkg/tool/GOOS_GOARCH/nm" (by decide)
      "nm".toList (by decide)).2 (by decide) (by decide) (by decide),
    (tool_entries_linux_amd64 []).2.2 "src/cmd/pack" (by decide) (by decide) (by decide)
      "plan9".toList "386".toList⟩

/-- C8 (as stated) fails: for the destination `out/` the entry
`pkg/tool/GOOS_GOARCH/dist` joins to `out/pkg/tool/linux_amd64/dist`, which is
not `dest + "/pkg/tool/linux_amd64/dist"` (that has two slashes). -/
theorem tool_entry_join_not_concat :
    Join ["out/".toList, expand "linux".toList "amd64".toList "pkg/tool/GOOS_GOARCH/dist".toList]
        = "out/pkg/tool/linux_amd64/dist".toList ∧
      Join ["out/".toList,
          expand "linux".toList "amd64".toList "pkg/tool/GOOS_GOARCH/dist".toList]
        ≠ "out/".toList ++ "/pkg/tool/linux_amd64/dist".toList := by
  decide

/-! ## Theorems: the walk -/

mutual
theorem walk_walkFn : ∀ (t : Node) (path : List Char) (s : List (List Char)),
    walk walkFn path t s = (s ++ collect path t, walkResult path t)
  | .file _, path, s => by
    cases h : HasSuffix path "_test.go".toList <;>
      simp only [walk, walkFn, collect, walkResult, h] <;> simp
  | .nostat _ _ _, path, s => by simp [walk, walkFn, collect, walkResult]
  | .noread _ _, path, s => by simp [walk, walkFn, collect, walkResult]
  | .dir _ kids, path, s => by
    cases h : (Base path == "testdata".toList)
    · simp only [walk, walkFn, collect, walkResult, h]
      simp [walkKids_walkFn kids path s]
    · simp only [walk, walkFn, collect, walkResult, h]
      simp
theorem walkKids_walkFn : ∀ (kids : List Node) (path : List Char) (s : List (List Char)),
    walkKids walkFn path kids s = (s ++ collectKids path kids, none)
  | [], path, s => by simp [walkKids, collectKids]
  | k :: ks, path, s => by
    rw [walkKids, walk_walkFn k, collectKids]
    cases k with
    | dir n kids =>
      cases h : (Base (Join [path, n]) == "testdata".toList) <;>
        simp only [walkResult, Node.name, h, walkKids_walkFn ks, Node.lstatFails,
          Node.isDir] <;> simp
    | file n => simp [walkResult, walkKids_walkFn ks]
    | noread n e => simp [walkResult, walkKids_walkFn ks]
    | nostat n d e => simp [walkResult, walkKids_walkFn ks]
end

theorem Walk_walkFn (root : List Char) (t : Node) (s : List (List Char)) :
    Walk walkFn root t s = (s ++ collect root t, none) := by
  rw [Walk, walk_walkFn]
  cases t with
  | dir n kids =>
    cases h : (Base root == "testdata".toList) <;> simp only [walkResult, h] <;> rfl
  | file n => rfl
  | noread n e => rfl
  | nostat n d e => rfl

theorem scan_eq_collect (root : List Char) (t : Node) : scan root t = collect root t := by
  rw [scan, Walk_walkFn]
  rfl

/-! ## Theorems: `filepath.Clean` is idempotent -/

theorem cleanStep_shape (r : Bool) (S : List (List Char)) (e : List Char)
    (hS : KeptShape r S) (he : '/' ∉ e) : KeptShape r (cleanStep r S e) := by
  obtain ⟨n, names, rfl, hn, hr⟩ := hS
  by_cases h1 : e = [] ∨ e = ['.']
  · rw [cleanStep.eq_def, if_pos h1]
    exact ⟨n, names, rfl, hn, hr⟩
  · by_cases h2 : e = ['.', '.']
    · subst h2
      rcases List.eq_nil_or_concat names with hnil | ⟨init, top, rfl⟩
      · subst hnil
        cases n with
        | zero =>
          cases r
          · exact ⟨1, [], by simp [cleanStep], by simp, by simp⟩
          · exact ⟨0, [], by simp [cleanStep], by simp, by simp⟩
        | succ n =>
          have hrf : r = false := by
            cases r
            · rfl
            · exact absurd (hr rfl) (by simp)
          subst hrf
          refine ⟨n + 2, [], ?_, by simp, by simp⟩
          simp [cleanStep, List.replicate_succ]
      · have htop : top ≠ ['.', '.'] :=
          ((isName_iff top).1 (hn top (by simp))).2.2.1
        refine ⟨n, init, ?_, fun x hx => hn x (by simp [hx]), hr⟩
        simp [cleanStep, htop]
    · have hname : isName e = true := by
        rw [isName_iff]
        simp only [not_or] at h1
        exact ⟨h1.1, h1.2, h2, he⟩
      rw [cleanStep_name r _ e hname]
      refine ⟨n, names ++ [e], by simp, ?_, hr⟩
      intro x hx
      rcases List.mem_append.1 hx with hx | hx
      · exact hn x hx
      · simp at hx; subst hx; exact hname

theorem foldl_cleanStep_shape (r : Bool) (comps : List (List Char))
    (hc : ∀ e ∈ comps, '/' ∉ e) :
    ∀ S, KeptShape r S → KeptShape r (comps.foldl (cleanStep r) S) := by
  induction comps with
  | nil => intro S h; exact h
  | cons c cs ih =>
    intro S h
    rw [List.foldl_cons]
    exact ih (fun e he => hc e (by simp [he])) _
      (cleanStep_shape r S c h (hc c (by simp)))

theorem foldl_cleanStep_dotdots (n : Nat) :
    ∀ m, (List.replicate n ['.', '.']).foldl (cleanStep false) (List.replicate m ['.', '.'])
      = List.replicate (n + m) ['.', '.'] := by
  induction n with
  | zero => intro m; simp
  | succ n ih =>
    intro m
    rw [List.replicate_succ, List.foldl_cons]
    have : cleanStep false (List.replicate m ['.', '.']) ['.', '.']
        = List.replicate (m + 1) ['.', '.'] := by
      cases m with
      | zero => simp [cleanStep]
      | succ m => simp [cleanStep, List.replicate_succ]
    rw [this, ih (m + 1)]
    congr 1
    omega

/-- Cleaning the elements kept by a cleaning keeps them all. -/
theorem foldl_cleanStep_replay (r : Bool) (S : List (List Char)) (hS : KeptShape r S) :
    S.reverse.foldl (cleanStep r) [] = S := by
  obtain ⟨n, names, rfl, hn, hr⟩ := hS
  rw [List.reverse_append, List.reverse_reverse, List.reverse_replicate, List.foldl_append,
    foldl_cleanStep_names r names hn]
  congr 1
  cases r with
  | true => rw [hr rfl]; rfl
  | false => simpa using foldl_cleanStep_dotdots n 0

theorem KeptShape_noslash (r : Bool) (S : List (List Char)) (hS : KeptShape r S) :
    ∀ e ∈ S, e ≠ [] ∧ '/' ∉ e := by
  obtain ⟨n, names, rfl, hn, _⟩ := hS
  intro e he
  rcases List.mem_append.1 he with he | he
  · have := (isName_iff e).1 (hn e (by simpa using he))
    exact ⟨this.1, this.2.2.2⟩
  · rw [(List.mem_replicate.1 he).2]
    simp

theorem joinSlash_head (B : List (List Char)) (hB : B ≠ [])
    (hn : ∀ e ∈ B, e ≠ [] ∧ '/' ∉ e) : (joinSlash B).head? ≠ some '/' := by
  cases B with
  | nil => exact absurd rfl hB
  | cons e es =>
    have he := hn e (by simp)
    cases e with
    | nil => exact absurd rfl he.1
    | cons c cs =>
      rw [joinSlash_cons_char]
      intro h
      simp at h
      exact he.2 (by simp [h])

/-- Cleaning a cleaned path changes nothing. -/
theorem Clean_idem (d : List Char) : Clean (Clean d) = Clean d := by
  by_cases hd : d = []
  · subst hd; decide
  · rw [Clean_eq d hd]
    generalize hr : (d.head? == some '/') = r
    generalize hS : (splitSlash d).foldl (cleanStep r) [] = S
    have hshape : KeptShape r S := by
      rw [← hS]
      exact foldl_cleanStep_shape r _ (splitSlash_noslash_mem d) [] ⟨0, [], by simp, by simp, by simp⟩
    have hel := KeptShape_noslash r S hshape
    have hel2 : ∀ e ∈ S.reverse, e ≠ [] ∧ '/' ∉ e := fun e he => hel e (by simpa using he)
    cases r with
    | true =>
      have hne : ['/'] ++ joinSlash S.reverse ≠ [] := by simp
      simp only [if_true]
      rw [if_neg hne, Clean_eq _ hne]
      simp only [List.singleton_append, List.head?_cons, beq_self_eq_true, if_true]
      by_cases hSn : S = []
      · subst hSn; decide
      · have hSr : S.reverse ≠ [] := by simpa using hSn
        rw [splitSlash_slash, splitSlash_joinSlash _ hSr (fun e he => (hel2 e he).2),
          List.foldl_cons]
        have : cleanStep true [] [] = [] := by decide
        rw [this, foldl_cleanStep_replay true S hshape]
        simp
    | false =>
      simp only [Bool.false_eq_true, if_false, List.nil_append]
      by_cases hne : joinSlash S.reverse = []
      · rw [if_pos hne]; decide
      · rw [if_neg hne, Clean_eq _ hne]
        have hSr : S.reverse ≠ [] := by
          intro h
          apply hne
          simp [h, joinSlash]
        have hh : ((joinSlash S.reverse).head? == some '/') = false := by
          simpa using joinSlash_head _ hSr hel2
        rw [hh, splitSlash_joinSlash _ hSr (fun e he => (hel2 e he).2),
          foldl_cleanStep_replay false S hshape]
        simp [hne]

theorem Clean_ne_nil (d : List Char) : Clean d ≠ [] := by
  by_cases hd : d = []
  · subst hd; decide
  · rw [Clean_eq d hd]
    generalize ((if (d.head? == some '/') = true then ['/'] else []) ++
      joinSlash ((splitSlash d).foldl (cleanStep (d.head? == some '/')) []).reverse) = x
    by_cases hx : x = []
    · rw [if_pos hx]; simp
    · rw [if_neg hx]; exact hx

theorem isRelNames_name (n : List Char) (h : isName n = true) : isRelNames n = true := by
  have := (isName_iff n).1 h
  simp [isRelNames, splitSlash_noslash n this.2.2.2, h]

/-- Below a good directory path `filepath.Join(path, name)` is `path/name`, and
that is a good directory path again. -/
theorem Join_name (p n : List Char) (hp : GoodDir p) (hn : isName n = true) :
    Join [p, n] = p ++ '/' :: n ∧ GoodDir (p ++ '/' :: n) := by
  have hJ : Join [p, n] = p ++ '/' :: n := by
    rw [Join_rel p n (isRelNames_name n hn), hp.1, below, if_neg hp.2.1, if_neg hp.2.2]
  have hpne : p ≠ [] := by
    have := Clean_ne_nil p
    rwa [hp.1] at this
  refine ⟨hJ, ?_, ?_, ?_⟩
  · have : Join [p, n] = Clean (p ++ '/' :: n) := by
      cases p with
      | nil => exact absurd rfl hpne
      | cons c cs => rfl
    rw [← this, hJ]
  · cases p with
    | nil => exact absurd rfl hpne
    | cons c cs => simp
  · cases p with
    | nil => exact absurd rfl hpne
    | cons c cs => simp

/-- The scan root `filepath.Join(dest, "src")` is a good directory path. -/
theorem GoodDir_root (dest : List Char) : GoodDir (Join [dest, "src".toList]) := by
  have hrel : isRelNames "src".toList = true := by decide
  have hJ := Join_rel dest _ hrel
  have hC : Clean (Join [dest, "src".toList]) = Join [dest, "src".toList] := by
    cases dest with
    | nil => decide
    | cons c cs =>
      have : Join [c :: cs, "src".toList] = Clean ((c :: cs) ++ '/' :: "src".toList) := rfl
      rw [this, Clean_idem]
  refine ⟨hC, ?_, ?_⟩
  · rw [hJ, below]
    split
    · decide
    · split
      · decide
      · intro h
        have := congrArg List.length h
        simp at this
  · rw [hJ, below]
    split
    · decide
    · split
      · decide
      · intro h
        have := congrArg List.length h
        simp at this

/-! ## Theorems: what the walk collects -/

theorem flat_cons (n : List Char) (ns : List (List Char)) :
    flat (n :: ns) = '/' :: n ++ flat ns := by
  simp [flat]

theorem flat_append (a b : List (List Char)) : flat (a ++ b) = flat a ++ flat b := by
  simp [flat]

theorem pathUnder_cons (root n : List Char) (ns : List (List Char)) :
    pathUnder root (n :: ns) = pathUnder (Join [root, n]) ns := rfl

theorem pathUnder_append (root : List Char) (a b : List (List Char)) :
    pathUnder root (a ++ b) = pathUnder (pathUnder root a) b := by
  simp [pathUnder]

theorem pathUnder_eq (names : List (List Char)) :
    ∀ root, GoodDir root → (∀ n ∈ names, isName n = true) →
      pathUnder root names = root ++ flat names ∧ GoodDir (pathUnder root names) := by
  induction names with
  | nil => intro root h _; simpa [pathUnder, flat] using h
  | cons n ns ih =>
    intro root h hn
    obtain ⟨hJ, hG⟩ := Join_name root n h (hn n (by simp))
    rw [pathUnder_cons, hJ]
    obtain ⟨h1, h2⟩ := ih _ hG (fun x hx => hn x (by simp [hx]))
    refine ⟨?_, h2⟩
    rw [h1, flat_cons]
    simp

theorem Base_append_name (p n : List Char) (hn : isName n = true) :
    Base (p ++ '/' :: n) = n := by
  have h := (isName_iff n).1 hn
  have hne : p ++ '/' :: n ≠ [] := by simp
  have hrev : (p ++ '/' :: n).reverse = n.reverse ++ '/' :: p.reverse := by simp
  have hall : ∀ c ∈ n.reverse, (c != '/') = true := by
    intro c hc
    have : c ∈ n := by simpa using hc
    simp only [bne_iff_ne, ne_eq]
    intro e
    exact h.2.2.2 (e ▸ this)
  have hdrop : (n.reverse ++ '/' :: p.reverse).dropWhile (fun c => c == '/')
      = n.reverse ++ '/' :: p.reverse := by
    cases hr : n.reverse with
    | nil => exact absurd (by simpa using hr) h.1
    | cons c cs =>
      have := hall c (by rw [hr]; simp)
      simp only [bne_iff_ne, ne_eq] at this
      rw [List.cons_append, List.dropWhile_cons_of_neg (by simpa using this)]
  have htake : (n.reverse ++ '/' :: p.reverse).takeWhile (fun c => c != '/') = n.reverse := by
    rw [List.takeWhile_append_of_pos hall]
    simp [List.takeWhile]
  rw [Base, if_neg hne]
  simp only [hrev, hdrop, htake, List.reverse_reverse]
  rw [if_neg h.1]

theorem HasSuffix_append (p n suf : List Char) (h : HasSuffix n suf = true) :
    HasSuffix (p ++ '/' :: n) suf = true := by
  unfold HasSuffix at h ⊢
  rw [List.isPrefixOf_iff_prefix] at h ⊢
  have hrev : (p ++ '/' :: n).reverse = n.reverse ++ '/' :: p.reverse := by simp
  rw [hrev]
  exact h.trans (List.prefix_append _ _)

theorem findKid_some (n : List Char) :
    ∀ (kids : List Node) (k : Node), findKid n kids = some k → k ∈ kids ∧ k.name = n := by
  intro kids
  induction kids with
  | nil => intro k h; simp [findKid] at h
  | cons x xs ih =>
    intro k h
    rw [findKid] at h
    split at h
    · rename_i hx
      simp only [Option.some.injEq] at h
      subst h
      exact ⟨by simp, hx⟩
    · obtain ⟨h1, h2⟩ := ih k h
      exact ⟨by simp [h1], h2⟩

theorem wellFormedKids_mem :
    ∀ (kids : List Node), wellFormedKids kids = true →
      ∀ k ∈ kids, isName k.name = true ∧ k.wellFormed = true := by
  intro kids
  induction kids with
  | nil => intro _ k hk; simp at hk
  | cons x xs ih =>
    intro h k hk
    rw [wellFormedKids] at h
    simp only [Bool.and_eq_true] at h
    rcases List.mem_cons.1 hk with rfl | hk
    · exact h.1
    · exact ih h.2 k hk

theorem collectKids_mem (path : List Char) :
    ∀ (kids : List Node) (k : Node), k ∈ kids →
      ∀ p ∈ collect (Join [path, k.name]) k, p ∈ collectKids path kids := by
  intro kids
  induction kids with
  | nil => intro k hk; simp at hk
  | cons x xs ih =>
    intro k hk p hp
    rw [collectKids]
    rcases List.mem_cons.1 hk with rfl | hk
    · exact List.mem_append_left _ hp
    · exact List.mem_append_right _ (ih k hk p hp)

/-- The entry reached through names none of which is `testdata` hands all it
collects to the walk of the whole tree. -/
theorem collect_lookup (names : List (List Char)) :
    ∀ (t : Node) (path : List Char) (t2 : Node), GoodDir path → t.wellFormed = true →
      Base path ≠ "testdata".toList → "testdata".toList ∉ names →
      lookup t names = some t2 →
        t2.wellFormed = true ∧ (∀ n ∈ names, isName n = true) ∧
        (names ≠ [] → Base (pathUnder path names) ≠ "testdata".toList) ∧
        ∀ p ∈ collect (pathUnder path names) t2, p ∈ collect path t := by
  induction names with
  | nil =>
    intro t path t2 _ hwf _ _ hl
    simp only [lookup, Option.some.injEq] at hl
    subst hl
    exact ⟨hwf, by simp, by simp, fun p hp => hp⟩
  | cons n ns ih =>
    intro t path t2 hg hwf hb htd hl
    cases t with
    | file _ => simp [lookup] at hl
    | noread _ _ => simp [lookup] at hl
    | nostat _ _ _ => simp [lookup] at hl
    | dir nm kids =>
      rw [lookup] at hl
      cases hk : findKid n kids with
      | none => simp [hk] at hl
      | some k =>
        simp only [hk] at hl
        obtain ⟨hmem, hname⟩ := findKid_some n kids k hk
        rw [Node.wellFormed] at hwf
        obtain ⟨hnn, hkwf⟩ := wellFormedKids_mem kids hwf k hmem
        rw [hname] at hnn
        obtain ⟨hJ, hG⟩ := Join_name path n hg hnn
        have hbn : Base (Join [path, n]) = n := by rw [hJ, Base_append_name path n hnn]
        have hntd : n ≠ "testdata".toList := fun e => htd (by simp [e])
        obtain ⟨h1, h2, h3, h4⟩ := ih k (Join [path, n]) t2 (hJ ▸ hG) hkwf
          (by rw [hbn]; exact hntd) (fun e => htd (List.mem_cons_of_mem _ e)) hl
        refine ⟨h1, ?_, ?_, ?_⟩
        · intro x hx
          rcases List.mem_cons.1 hx with rfl | hx
          · exact hnn
          · exact h2 x hx
        · intro _
          rw [pathUnder_cons]
          by_cases hns : ns = []
          · subst hns
            rw [show pathUnder (Join [path, n]) [] = Join [path, n] from rfl, hbn]
            exact hntd
          · exact h3 hns
        · intro p hp
          rw [pathUnder_cons] at hp
          have hb2 : (Base path == "testdata".toList) = false := by simpa using hb
          rw [collect, hb2]
          simp only [Bool.false_eq_true, if_false]
          have := collectKids_mem path kids k hmem p
          rw [hname] at this
          exact this (h4 p hp)

theorem lookup_append (a b : List (List Char)) :
    ∀ t : Node, lookup t (a ++ b) = (lookup t a).bind (fun t1 => lookup t1 b) := by
  induction a with
  | nil => intro t; simp [lookup]
  | cons n ns ih =>
    intro t
    cases t with
    | file _ => simp [lookup]
    | noread _ _ => simp [lookup]
    | nostat _ _ _ => simp [lookup]
    | dir nm kids =>
      simp only [List.cons_append, lookup]
      cases findKid n kids with
      | none => simp
      | some k => simp [ih k]

/-- The base name of the scan root is `src`. -/
theorem Base_root (dest : List Char) : Base (Join [dest, "src".toList]) = "src".toList := by
  rw [Join_rel dest _ (by decide), below]
  split
  · decide
  · split
    · decide
    · exact Base_append_name _ _ (by decide)

/-- The path of an entry reached through names none of which is `testdata` is
in the removal list when the entry is a listed directory named `testdata`,
and when it is a non-directory whose name ends in `_test.go`. -/
theorem reached_entry_collected (dest : List Char) (t : Node) (names : List (List Char))
    (n : List Char) (t2 : Node) (hwf : t.wellFormed = true)
    (hreach : "testdata".toList ∉ names) (hl : lookup t (names ++ [n]) = some t2)
    (hkind : (∃ nm kids, t2 = .dir nm kids ∧ n = "testdata".toList) ∨
      (∃ nm, t2 = .file nm ∧ HasSuffix n "_test.go".toList = true)) :
    pathUnder (Join [dest, "src".toList]) (names ++ [n])
      ∈ scan (Join [dest, "src".toList]) t := by
  have hroot := GoodDir_root dest
  have hbroot : Base (Join [dest, "src".toList]) ≠ "testdata".toList := by
    rw [Base_root]; decide
  rw [lookup_append] at hl
  cases h1 : lookup t names with
  | none => simp [h1] at hl
  | some t1 =>
    simp only [h1, Option.some_bind] at hl
    obtain ⟨hwf1, hnames, hb1, hincl⟩ :=
      collect_lookup names t _ t1 hroot hwf hbroot hreach h1
    obtain ⟨hp1, hg1⟩ := pathUnder_eq names _ hroot hnames
    have hb1' : Base (pathUnder (Join [dest, "src".toList]) names) ≠ "testdata".toList := by
      by_cases hn : names = []
      · subst hn; exact hbroot
      · exact hb1 hn
    rw [scan_eq_collect]
    apply hincl
    cases t1 with
    | file _ => simp [lookup] at hl
    | noread _ _ => simp [lookup] at hl
    | nostat _ _ _ => simp [lookup] at hl
    | dir nm kids =>
      rw [lookup] at hl
      cases hk : findKid n kids with
      | none => simp [hk] at hl
      | some k =>
        simp only [hk, lookup, Option.some.injEq] at hl
        subst hl
        obtain ⟨hmem, hname⟩ := findKid_some n kids k hk
        rw [Node.wellFormed] at hwf1
        obtain ⟨hnn, _⟩ := wellFormedKids_mem kids hwf1 k hmem
        rw [hname] at hnn
        have hb2 : (Base (pathUnder (Join [dest, "src".toList]) names)
            == "testdata".toList) = false := by simpa using hb1'
        rw [collect, hb2]
        simp only [Bool.false_eq_true, if_false]
        have hin := collectKids_mem (pathUnder (Join [dest, "src".toList]) names) kids k hmem
        rw [hname] at hin
        apply hin
        rw [pathUnder_append]
        show Join [pathUnder (Join [dest, "src".toList]) names, n] ∈ _
        obtain ⟨hJ, _⟩ := Join_name _ n hg1 hnn
        rcases hkind with ⟨nm2, kids2, rfl, hn⟩ | ⟨nm2, rfl, hs⟩
        · have hbn : (Base (Join [pathUnder (Join [dest, "src".toList]) names, n])
              == "testdata".toList) = true := by
            rw [hJ, Base_append_name _ n hnn, hn]; decide
          rw [collect, hbn]
          simp
        · have hsn : HasSuffix (Join [pathUnder (Join [dest, "src".toList]) names, n])
              "_test.go".toList = true := by
            rw [hJ]; exact HasSuffix_append _ _ _ hs
          rw [collect, hsn]
          simp

mutual
/-- Every collected path is the walked path followed by file names, of which
only the last can be `testdata`. -/
theorem collect_form : ∀ (t : Node) (path : List Char), GoodDir path →
    t.wellFormed = true → ∀ p ∈ collect path t,
      ∃ ms : List (List Char), (∀ m ∈ ms, isName m = true) ∧ p = path ++ flat ms ∧
        "testdata".toList ∉ ms.dropLast ∧ (ms ≠ [] → Base path ≠ "testdata".toList)
  | .file _, path, _, _, p, hp => by
    rw [collect] at hp
    split at hp
    · simp only [List.mem_singleton] at hp
      exact ⟨[], by simp, by simp [hp, flat], by simp, by simp⟩
    · simp at hp
  | .noread _ _, path, _, _, p, hp => by simp [collect] at hp
  | .nostat _ _ _, path, _, _, p, hp => by simp [collect] at hp
  | .dir _ kids, path, hg, hwf, p, hp => by
    rw [collect] at hp
    split at hp
    · simp only [List.mem_singleton] at hp
      exact ⟨[], by simp, by simp [hp, flat], by simp, by simp⟩
    · rename_i hb
      have hb2 : Base path ≠ "testdata".toList := by simpa using hb
      rw [Node.wellFormed] at hwf
      obtain ⟨ms, _, h2, h3, h4⟩ := collectKids_form kids path hg hwf p hp
      exact ⟨ms, h2, h3, h4, fun _ => hb2⟩
theorem collectKids_form : ∀ (kids : List Node) (path : List Char), GoodDir path →
    wellFormedKids kids = true → ∀ p ∈ collectKids path kids,
      ∃ ms : List (List Char), ms ≠ [] ∧ (∀ m ∈ ms, isName m = true) ∧ p = path ++ flat ms ∧
        "testdata".toList ∉ ms.dropLast
  | [], path, _, _, p, hp => by simp [collectKids] at hp
  | k :: ks, path, hg, hwf, p, hp => by
    rw [wellFormedKids] at hwf
    simp only [Bool.and_eq_true] at hwf
    rw [collectKids] at hp
    rcases List.mem_append.1 hp with hp | hp
    · obtain ⟨hJ, hG⟩ := Join_name path k.name hg hwf.1.1
      obtain ⟨ms, h1, h2, h3, h4⟩ := collect_form k (Join [path, k.name]) (hJ ▸ hG) hwf.1.2 p hp
      refine ⟨k.name :: ms, by simp, ?_, ?_, ?_⟩
      · intro m hm
        rcases List.mem_cons.1 hm with rfl | hm
        · exact hwf.1.1
        · exact h1 m hm
      · rw [h2, hJ, flat_cons]; simp
      · cases ms with
        | nil => simp
        | cons m ms =>
          rw [List.dropLast_cons₂]
          intro hmem
          rcases List.mem_cons.1 hmem with e | hmem
          · have := h4 (by simp)
            rw [hJ, Base_append_name path k.name hwf.1.1] at this
            exact this e.symm
          · exact h3 hmem
    · exact collectKids_form ks path hg hwf.2 p hp
end

theorem flat_head (ms : List (List Char)) : flat ms = [] ∨ (flat ms).head? = some '/' := by
  cases ms with
  | nil => left; rfl
  | cons m ms => right; rw [flat_cons]; rfl

theorem sep_prefix (a m x y : List Char) (ha : '/' ∉ a) (hm : '/' ∉ m)
    (hy : y = [] ∨ y.head? = some '/') (h : a ++ '/' :: x <+: m ++ y) :
    a = m ∧ '/' :: x <+: y := by
  have h1 : a <+: m ++ y := (List.prefix_append a _).trans h
  rcases List.prefix_or_prefix_of_prefix h1 (List.prefix_append m y) with h2 | h2
  · obtain ⟨t, rfl⟩ := h2
    rw [List.append_assoc, List.prefix_append_right_inj] at h
    cases t with
    | nil => exact ⟨by simp, by simpa using h⟩
    | cons c cs =>
      rw [List.cons_append, List.cons_prefix_cons] at h
      exact absurd (by simp [← h.1]) hm
  · obtain ⟨t, rfl⟩ := h2
    rw [List.append_assoc, List.prefix_append_right_inj] at h
    cases t with
    | nil => exact ⟨by simp, by simpa using h⟩
    | cons c cs =>
      rcases hy with hy | hy
      · subst hy; simp at h
      · cases y with
        | nil => simp at hy
        | cons d ds =>
          rw [List.cons_append, List.cons_prefix_cons] at h
          simp only [List.head?_cons, Option.some.injEq] at hy
          exact absurd (by simp [h.1, hy]) ha

/-- A path that continues `root ++ flat A` behind a slash has the names `A`
followed by at least one more. -/
theorem flat_prefix (A : List (List Char)) :
    ∀ ms : List (List Char), (∀ a ∈ A, '/' ∉ a) → (∀ m ∈ ms, '/' ∉ m) →
      flat A ++ ['/'] <+: flat ms → ∃ rest, rest ≠ [] ∧ ms = A ++ rest := by
  induction A with
  | nil =>
    intro ms _ _ h
    cases ms with
    | nil => simp [flat] at h
    | cons m ms => exact ⟨m :: ms, by simp, by simp⟩
  | cons a A ih =>
    intro ms hA hms h
    cases ms with
    | nil => simp [flat] at h
    | cons m ms =>
      rw [flat_cons, flat_cons, List.cons_append, List.cons_append, List.cons_append,
        List.cons_prefix_cons, List.append_assoc] at h
      have hX : ∃ x, flat A ++ ['/'] = '/' :: x := by
        cases A with
        | nil => exact ⟨[], rfl⟩
        | cons b B => exact ⟨_, by rw [flat_cons]; rfl⟩
      obtain ⟨x, hx⟩ := hX
      rw [hx] at h
      obtain ⟨e, h2⟩ := sep_prefix a m x (flat ms) (hA a (by simp)) (hms m (by simp))
        (flat_head ms) h.2
      rw [← hx] at h2
      obtain ⟨rest, hr, hms2⟩ := ih ms (fun b hb => hA b (by simp [hb]))
        (fun b hb => hms b (by simp [hb])) h2
      exact ⟨rest, hr, by rw [e, hms2]; rfl⟩

/-! ## Theorems: test-data directories and test files -/

/-- C1 (as amended): a directory named `testdata` that the walk of `dest/src`
reaches (no directory on the way to it is named `testdata`) and whose listing
succeeds is in the removal list, and no path strictly inside it is. -/
theorem testdata_dir_collected (dest : List Char) (t : Node) (names : List (List Char))
    (nm : List Char) (kids : List Node) (hwf : t.wellFormed = true)
    (hreach : "testdata".toList ∉ names)
    (hl : lookup t (names ++ ["testdata".toList]) = some (.dir nm kids)) :
    pathUnder (Join [dest, "src".toList]) (names ++ ["testdata".toList])
        ∈ scan (Join [dest, "src".toList]) t ∧
      ∀ p ∈ scan (Join [dest, "src".toList]) t,
        ¬ (pathUnder (Join [dest, "src".toList]) (names ++ ["testdata".toList]) ++ ['/'] <+: p) := by
  have hroot := GoodDir_root dest
  refine ⟨reached_entry_collected dest t names _ _ hwf hreach hl
    (Or.inl ⟨nm, kids, rfl, rfl⟩), ?_⟩
  intro p hp hpre
  rw [scan_eq_collect] at hp
  obtain ⟨ms, hms, hpeq, hlast, _⟩ := collect_form t _ hroot hwf p hp
  have hbroot : Base (Join [dest, "src".toList]) ≠ "testdata".toList := by
    rw [Base_root]; decide
  have hnames : ∀ n ∈ names, isName n = true := by
    rw [lookup_append] at hl
    cases h1 : lookup t names with
    | none => simp [h1] at hl
    | some t1 => exact (collect_lookup names t _ t1 hroot hwf hbroot hreach h1).2.1
  have hall : ∀ n ∈ names ++ ["testdata".toList], isName n = true := by
    intro n hn
    rcases List.mem_append.1 hn with hn | hn
    · exact hnames n hn
    · rw [List.mem_singleton.1 hn]; decide
  rw [(pathUnder_eq _ _ hroot hall).1, hpeq, List.append_assoc,
    List.prefix_append_right_inj] at hpre
  obtain ⟨rest, hr, hmeq⟩ := flat_prefix _ ms (names_noslash _ hall) (names_noslash _ hms) hpre
  apply hlast
  rw [hmeq, List.dropLast_append_of_ne_nil _ hr]
  exact List.mem_append_left _ (by simp)

theorem testdata_dir_collected_witness :
    "go/src/pkg/foo/testdata".toList ∈ scan "go/src".toList sampleSrc ∧
      ∀ p ∈ scan "go/src".toList sampleSrc, ¬ ("go/src/pkg/foo/testdata/".toList <+: p) :=
  testdata_dir_collected "go".toList sampleSrc ["pkg".toList, "foo".toList] "testdata".toList
    [.file "x".toList, .file "y_test.go".toList] (by decide) (by decide) rfl

/-- C1 (as stated) fails: `src/pkg/testdata` is a directory that the walk
reaches, and its listing fails; `walk` hands it to the walk function together
with that error, the walk function returns nil, and the directory is not in
the removal list. -/
theorem unlistable_testdata_not_collected :
    kindAt closedTestdataSrc ["pkg".toList, "testdata".toList] = some true ∧
      pathUnder (Join ["go".toList, "src".toList]) ["pkg".toList, "testdata".toList]
        = "go/src/pkg/testdata".toList ∧
      walk walkFn "go/src/pkg/testdata".toList
          (.noread "testdata".toList "permission denied".toList) []
        = ([], none) ∧
      "go/src/pkg/testdata".toList
        ∉ scan (Join ["go".toList, "src".toList]) closedTestdataSrc :=
  ⟨by decide, by decide, by decide, by decide⟩

/-- C2 (as amended): a non-directory whose name ends in `_test.go` and that
the walk of `dest/src` reaches (no directory on the way to it is named
`testdata`) is in the removal list. -/
theorem test_file_collected (dest : List Char) (t : Node) (names : List (List Char))
    (n nm : List Char) (hwf : t.wellFormed = true) (hreach : "testdata".toList ∉ names)
    (hl : lookup t (names ++ [n]) = some (.file nm))
    (hs : HasSuffix n "_test.go".toList = true) :
    pathUnder (Join [dest, "src".toList]) (names ++ [n])
      ∈ scan (Join [dest, "src".toList]) t :=
  reached_entry_collected dest t names n _ hwf hreach hl (Or.inr ⟨nm, rfl, hs⟩)

theorem test_file_collected_witness :
    "go/src/pkg/foo/foo_test.go".toList ∈ scan "go/src".toList sampleSrc :=
  test_file_collected "go".toList sampleSrc ["pkg".toList, "foo".toList] "foo_test.go".toList
    "foo_test.go".toList (by decide) (by decide) rfl (by decide)

/-- C2 (as stated) fails: the file `y_test.go` inside `src/pkg/foo/testdata` is a
file under the scan root whose name ends in `_test.go`, and its path is not in
the removal list. -/
theorem test_file_in_testdata_not_collected :
    lookup sampleSrc ["pkg".toList, "foo".toList, "testdata".toList, "y_test.go".toList]
        = some (.file "y_test.go".toList) ∧
      pathUnder (Join ["go".toList, "src".toList])
          ["pkg".toList, "foo".toList, "testdata".toList, "y_test.go".toList]
        = "go/src/pkg/foo/testdata/y_test.go".toList ∧
      "go/src/pkg/foo/testdata/y_test.go".toList
        ∉ scan (Join ["go".toList, "src".toList]) sampleSrc :=
  ⟨rfl, by decide, by decide⟩

/-! ## Theorems: the control flow of `main` -/

theorem osAwareRemoveAll_trace {σ : Type} (h : Host σ) (path : List Char) (w : World σ) :
    (osAwareRemoveAll h path w).1.stderr = w.stderr ∧
      ∃ evs, (osAwareRemoveAll h path w).1.trace = w.trace ++ evs ∧
        ∀ ev ∈ evs, Event.removes [path] ev = true := by
  unfold osAwareRemoveAll
  split
  · exact ⟨rfl, [.stat path], rfl, by simp [Event.removes]⟩
  · exact ⟨rfl, [.stat path], rfl, by simp [Event.removes]⟩
  · rename_i isDir _
    split
    · refine ⟨rfl, [.stat path, .run (deleteCmd isDir path)], rfl, ?_⟩
      intro ev hev
      simp only [List.mem_cons, List.mem_singleton, List.not_mem_nil, or_false] at hev
      rcases hev with rfl | rfl
      · simp [Event.removes]
      · cases isDir <;> simp [Event.removes]
    · exact ⟨rfl, [.stat path, .removeAll path], rfl, by simp [Event.removes]⟩

theorem Event.removes_mono (a b : List (List Char)) (hab : ∀ p ∈ a, p ∈ b) (ev : Event)
    (h : Event.removes a ev = true) : Event.removes b ev = true := by
  cases ev with
  | stat p =>
    simp only [Event.removes, List.contains, List.elem_eq_mem, decide_eq_true_eq] at h ⊢
    exact hab p h
  | removeAll p =>
    simp only [Event.removes, List.contains, List.elem_eq_mem, decide_eq_true_eq] at h ⊢
    exact hab p h
  | walk r => simp [Event.removes] at h
  | run cmd =>
    simp only [Event.removes, List.any_eq_true] at h ⊢
    obtain ⟨p, hp, hc⟩ := h
    exact ⟨p, hab p hp, hc⟩

/-- A removal loop that comes to its end leaves standard error as it was and
makes calls for the listed names only. -/
theorem removeEach_ok {σ : Type} (h : Host σ) (names : List (List Char)) :
    ∀ (w w1 : World σ), removeEach h names w = .ok w1 →
      w1.stderr = w.stderr ∧
        ∃ evs, w1.trace = w.trace ++ evs ∧ ∀ ev ∈ evs, Event.removes names ev = true := by
  induction names with
  | nil =>
    intro w w1 hw
    simp only [removeEach, Except.ok.injEq] at hw
    subst hw
    exact ⟨rfl, [], by simp, by simp⟩
  | cons n ns ih =>
    intro w w1 hw
    rw [removeEach] at hw
    obtain ⟨hs, evs, ht, hev⟩ := osAwareRemoveAll_trace h n w
    rcases hr : osAwareRemoveAll h n w with ⟨wa, _ | err⟩
    · rw [hr] at hw hs ht
      simp only at hw hs ht
      obtain ⟨hs2, evs2, ht2, hev2⟩ := ih wa w1 hw
      refine ⟨hs2.trans hs, evs ++ evs2, by rw [ht2, ht, List.append_assoc], ?_⟩
      intro ev hmem
      rcases List.mem_append.1 hmem with hmem | hmem
      · exact Event.removes_mono [n] _ (by simp) ev (hev ev hmem)
      · exact Event.removes_mono ns _ (fun p hp => by simp [hp]) ev (hev2 ev hmem)
    · rw [hr] at hw
      simp at hw

/-- A removal loop over `pre ++ name :: post` that passes `pre` and fails on
`name` ends the run there. -/
theorem removeEach_fail {σ : Type} (h : Host σ) (pre : List (List Char)) (name : List Char)
    (post : List (List Char)) :
    ∀ (w w1 : World σ) (err : Err), removeEach h pre w = .ok w1 →
      (osAwareRemoveAll h name w1).2 = some err →
      removeEach h (pre ++ name :: post) w =
        .error (dief ("removing ".toList ++ name ++ ": ".toList ++ err ++ "\n".toList)
          (osAwareRemoveAll h name w1).1) := by
  induction pre with
  | nil =>
    intro w w1 err hw he
    simp only [removeEach, Except.ok.injEq] at hw
    subst hw
    rw [List.nil_append, removeEach]
    rcases hr : osAwareRemoveAll h name w with ⟨wa, _ | e⟩
    · rw [hr] at he; simp at he
    · rw [hr] at he
      simp only [Option.some.injEq] at he
      subst he
      rfl
  | cons n ns ih =>
    intro w w1 err hw he
    rw [removeEach] at hw
    rw [List.cons_append, removeEach]
    rcases hr : osAwareRemoveAll h n w with ⟨wa, _ | e⟩
    · rw [hr] at hw
      exact ih wa w1 err hw he
    · rw [hr] at hw
      simp at hw

theorem main_eq_prune {σ : Type} (h : Host σ) (inv : Invocation) (fs : σ) (dest : List Char)
    (hargs : inv.args = [dest]) (hstat : ∀ d, h.stat fs dest ≠ .ok d)
    (hclone : (h.run (cloneCmd inv.repo dest) fs).2 = none)
    (hmake : (h.run (makeCmd h.goos dest) (h.run (cloneCmd inv.repo dest) fs).1).2 = none) :
    main h inv fs = prune h dest (builtWorld h inv dest fs) := by
  unfold main builtWorld
  rw [hargs]
  simp only
  rcases hs : h.stat fs dest with d | e | e
  · exact absurd hs (hstat d)
  all_goals
    rcases hc : h.run (cloneCmd inv.repo dest) fs with ⟨fs1, _ | e1⟩
    · rw [hc] at hmake
      simp only at hmake
      rcases hm : h.run (makeCmd h.goos dest) fs1 with ⟨fs2, _ | e2⟩
      · simp only [hm]
      · rw [hm] at hmake; simp at hmake
    · rw [hc] at hclone; simp at hclone

/-- C9: with one positional argument whose path `os.Stat` finds, the run ends
with status 1 and the `already exists` message, having made no call but that
`os.Stat` (no command was run, nothing was removed, the file system is as it
was); with another number of positional arguments it ends with status 2. -/
theorem existing_destination_exit {σ : Type} (h : Host σ) (inv : Invocation) (fs : σ) :
    (∀ (dest : List Char) (isDir : Bool), inv.args = [dest] → h.stat fs dest = .ok isDir →
      (main h inv fs).status = 1 ∧
      (main h inv fs).world.stderr
        = "destination ".toList ++ dest ++ " already exists; won't overwrite.\n".toList ∧
      (main h inv fs).world.trace = [.stat dest] ∧
      (main h inv fs).world.fs = fs) ∧
    (inv.args.length ≠ 1 →
      (main h inv fs).status = 2 ∧ (main h inv fs).world.trace = [] ∧
      (main h inv fs).world.fs = fs) := by
  constructor
  · intro dest isDir hargs hstat
    unfold main
    rw [hargs]
    simp [hstat, dief]
  · intro hlen
    unfold main
    split
    · rename_i dest heq
      rw [heq] at hlen
      simp at hlen
    · exact ⟨rfl, rfl, rfl⟩

/-- C5: when `osAwareRemoveAll` fails on the expanded path of an entry of
`alwaysRemove`, the earlier entries having passed, the run ends with status 1
in the state that call left; standard error holds the `removing` message with
that path and the error; the calls made after the build are those of
`osAwareRemoveAll` for that entry and the earlier ones, so no later entry was
touched and the walk was not started. -/
theorem static_failure_stops {σ : Type} (h : Host σ) (inv : Invocation) (fs : σ)
    (dest : List Char) (pre post : List String) (pat : String) (w1 : World σ) (err : Err)
    (hargs : inv.args = [dest]) (hstat : ∀ d, h.stat fs dest ≠ .ok d)
    (hclone : (h.run (cloneCmd inv.repo dest) fs).2 = none)
    (hmake : (h.run (makeCmd h.goos dest) (h.run (cloneCmd inv.repo dest) fs).1).2 = none)
    (hsplit : alwaysRemove = pre ++ pat :: post)
    (hpre : removeEach h (pre.map (fun p => Join [dest, expand h.goos h.goarch p.toList]))
      (builtWorld h inv dest fs) = .ok w1)
    (hfail : (osAwareRemoveAll h (Join [dest, expand h.goos h.goarch pat.toList]) w1).2
      = some err) :
    (main h inv fs).status = 1 ∧
    (main h inv fs).world.fs
      = (osAwareRemoveAll h (Join [dest, expand h.goos h.goarch pat.toList]) w1).1.fs ∧
    (main h inv fs).world.stderr
      = "removing ".toList ++ Join [dest, expand h.goos h.goarch pat.toList] ++ ": ".toList
          ++ err ++ "\n".toList ∧
    ∃ evs, (main h inv fs).world.trace
        = [.stat dest, .run (cloneCmd inv.repo dest), .run (makeCmd h.goos dest)] ++ evs ∧
      ∀ ev ∈ evs, Event.removes
        ((pre ++ [pat]).map (fun p => Join [dest, expand h.goos h.goarch p.toList])) ev = true := by
  have hnames : staticNames h.goos h.goarch dest
      = pre.map (fun p => Join [dest, expand h.goos h.goarch p.toList])
        ++ Join [dest, expand h.goos h.goarch pat.toList]
        :: post.map (fun p => Join [dest, expand h.goos h.goarch p.toList]) := by
    rw [staticNames, hsplit]
    simp
  have hrun := removeEach_fail h _ _
    (post.map (fun p => Join [dest, expand h.goos h.goarch p.toList])) _ w1 err hpre hfail
  rw [← hnames] at hrun
  have hmain : main h inv fs
      = dief ("removing ".toList ++ Join [dest, expand h.goos h.goarch pat.toList]
          ++ ": ".toList ++ err ++ "\n".toList)
        (osAwareRemoveAll h (Join [dest, expand h.goos h.goarch pat.toList]) w1).1 := by
    rw [main_eq_prune h inv fs dest hargs hstat hclone hmake, prune, hrun]
  obtain ⟨hs1, evs1, ht1, hev1⟩ := removeEach_ok h _ _ w1 hpre
  obtain ⟨hs2, evs2, ht2, hev2⟩ :=
    osAwareRemoveAll_trace h (Join [dest, expand h.goos h.goarch pat.toList]) w1
  rw [hmain]
  refine ⟨rfl, rfl, ?_, evs1 ++ evs2, ?_, ?_⟩
  · show _ ++ _ = _
    rw [hs2, hs1]
    rfl
  · show (osAwareRemoveAll h _ w1).1.trace = _
    rw [ht2, ht1, List.append_assoc]
    rfl
  · intro ev hmem
    rcases List.mem_append.1 hmem with hmem | hmem
    · exact Event.removes_mono _ _ (fun p hp => by
        rw [List.map_append]; exact List.mem_append_left _ hp) ev (hev1 ev hmem)
    · exact Event.removes_mono _ _ (fun p hp => by
        rw [List.map_append]; exact List.mem_append_right _ (by simpa using hp)) ev
        (hev2 ev hmem)

/-! ## Theorems: errors during the walk -/

mutual
theorem collect_dropErrors : ∀ (t : Node) (path : List Char),
    collect path t.dropErrors = collect path t
  | .file _, path => rfl
  | .noread _ _, path => rfl
  | .nostat _ _ _, path => rfl
  | .dir _ kids, path => by
    rw [Node.dropErrors, collect, collect, collectKids_dropErrors kids path]
theorem collectKids_dropErrors : ∀ (kids : List Node) (path : List Char),
    collectKids path (dropErrorsKids kids) = collectKids path kids
  | [], path => rfl
  | k :: ks, path => by
    rw [dropErrorsKids, collectKids, ← collectKids_dropErrors ks path]
    cases k with
    | file n => rfl
    | noread n e => rfl
    | nostat n d e => rfl
    | dir n kids =>
      have := collect_dropErrors (.dir n kids) (Join [path, n])
      simp only [Node.failing, Bool.false_eq_true, if_false, collectKids, Node.dropErrors,
        Node.name] at this ⊢
      rw [this]
end

/-- The walk of `main` reports no error, so `prune` goes from the first loop to
the removal of what the walk collected. -/
theorem prune_eq {σ : Type} (h : Host σ) (dest : List Char) (w : World σ) :
    prune h dest w =
      (match removeEach h (staticNames h.goos h.goarch dest) w with
       | .error e => e
       | .ok w1 =>
         match removeEach h
             (scan (Join [dest, "src".toList]) (h.tree w1.fs (Join [dest, "src".toList])))
             { w1 with trace := w1.trace ++ [.walk (Join [dest, "src".toList])] } with
         | .error e => e
         | .ok w2 => { status := 0, world := w2 }) := by
  unfold prune
  cases removeEach h (staticNames h.goos h.goarch dest) w with
  | error e => rfl
  | ok w1 =>
    simp only [scan_eq_collect, Walk_walkFn, List.nil_append]

/-- C7 (as amended): the walk of `main` never reports an error to its caller.
When `lstat` of the scan root fails, or its listing, the walk function
swallows that error too: nothing is collected and the walk returns nil; the
entries on which `lstat` or the listing fails do not change what is
collected; and `prune` never leaves through the `looking for test data` exit:
after the first loop it goes on to remove what the walk collected and ends
with status 0 unless a removal fails. -/
theorem walk_error_never_reported {σ : Type} (h : Host σ) (dest : List Char) (w : World σ) :
    (∀ root t s, (Walk walkFn root t s).2 = none) ∧
    (∀ root n d e, scan root (.nostat n d e) = []) ∧
    (∀ root n e, scan root (.noread n e) = []) ∧
    (∀ root nm kids, scan root (.dir nm kids) = scan root (.dir nm (dropErrorsKids kids))) ∧
    prune h dest w =
      (match removeEach h (staticNames h.goos h.goarch dest) w with
       | .error e => e
       | .ok w1 =>
         match removeEach h
             (scan (Join [dest, "src".toList]) (h.tree w1.fs (Join [dest, "src".toList])))
             { w1 with trace := w1.trace ++ [.walk (Join [dest, "src".toList])] } with
         | .error e => e
         | .ok w2 => { status := 0, world := w2 }) := by
  refine ⟨fun root t s => by rw [Walk_walkFn], fun root n d e => ?_, fun root n e => ?_,
    fun root nm kids => ?_, prune_eq h dest w⟩
  · rw [scan_eq_collect]; rfl
  · rw [scan_eq_collect]; rfl
  · rw [scan_eq_collect, scan_eq_collect]
    exact (collect_dropErrors (.dir nm kids) root).symm

/-! ## Theorems: every removed path lies strictly below the destination -/

theorem flat_eq_joinSlash (ms : List (List Char)) (h : ms ≠ []) :
    flat ms = '/' :: joinSlash ms := by
  induction ms with
  | nil => exact absurd rfl h
  | cons m ms ih =>
    cases ms with
    | nil => simp [flat, joinSlash_one]
    | cons m2 ms =>
      rw [flat_cons, ih (by simp), joinSlash_cons]
      simp

theorem below_append (dir rel x : List Char) : below dir rel ++ x = below dir (rel ++ x) := by
  unfold below
  split
  · simp
  · split <;> simp

theorem isRelNames_joinSlash (ms : List (List Char)) (h : ms ≠ [])
    (hn : ∀ m ∈ ms, isName m = true) : isRelNames (joinSlash ms) = true := by
  rw [isRelNames, splitSlash_joinSlash ms h (names_noslash ms hn)]
  simpa using hn

/-- The walk of `dest/src` collects only paths that continue the scan root by
at least one file name. -/
theorem scan_form (dest : List Char) (t : Node) (hwf : t.wellFormed = true) :
    ∀ p ∈ scan (Join [dest, "src".toList]) t,
      ∃ ms : List (List Char), ms ≠ [] ∧ (∀ m ∈ ms, isName m = true) ∧
        p = Join [dest, "src".toList] ++ flat ms ∧ "testdata".toList ∉ ms.dropLast := by
  intro p hp
  rw [scan_eq_collect] at hp
  have hroot := GoodDir_root dest
  cases t with
  | noread _ _ => simp [collect] at hp
  | nostat _ _ _ => simp [collect] at hp
  | file _ =>
    exfalso
    rw [collect] at hp
    have hs : HasSuffix (Join [dest, "src".toList]) "_test.go".toList = false := by
      rw [Join_rel dest _ (by decide), below]
      split
      · decide
      · split
        · decide
        · unfold HasSuffix
          rw [List.reverse_append]
          simp [List.isPrefixOf]
    rw [hs] at hp
    simp at hp
  | dir nm kids =>
    rw [collect] at hp
    have hb : (Base (Join [dest, "src".toList]) == "testdata".toList) = false := by
      rw [Base_root]; decide
    rw [hb] at hp
    simp only [Bool.false_eq_true, if_false] at hp
    rw [Node.wellFormed] at hwf
    exact collectKids_form kids _ hroot hwf p hp

theorem expand_isRelNames (goos goarch : List Char) (hos : '/' ∉ goos) (harch : '/' ∉ goarch)
    (pat : String) (hpat : pat ∈ alwaysRemove) :
    isRelNames (expand goos goarch pat.toList) = true := by
  rw [isRelNames, splitSlash_expand _ _ _ hos harch, List.all_eq_true]
  intro e he
  rw [List.mem_map] at he
  obtain ⟨a, ha, rfl⟩ := he
  obtain ⟨x, hx, hxp, hxd⟩ := alwaysRemove_marked pat hpat a ha
  exact isName_expand goos goarch a hos harch (splitSlash_noslash_mem _ a ha) x hx hxp hxd

/-- Every expanded entry of `alwaysRemove` joined to the destination lies
strictly below the destination. -/
theorem staticNames_strictlyUnder (dest goos goarch : List Char)
    (hos : '/' ∉ goos) (harch : '/' ∉ goarch) :
    ∀ p ∈ staticNames goos goarch dest, StrictlyUnder dest p := by
  intro p hp
  rw [staticNames, List.mem_map] at hp
  obtain ⟨pat, hpat, rfl⟩ := hp
  have hrel := expand_isRelNames goos goarch hos harch pat hpat
  exact ⟨_, hrel, Join_rel dest _ hrel⟩

/-! ## Theorems: the tree file system -/

theorem removeAt_nil (t : Node) : removeAt t [] = t := by
  cases t <;> rfl

theorem removeAt_name (c : List (List Char)) : ∀ t : Node, (removeAt t c).name = t.name := by
  cases c with
  | nil => intro t; rw [removeAt_nil]
  | cons n ns =>
    intro t
    cases t with
    | file _ => rfl
    | noread _ _ => rfl
    | nostat _ _ _ => rfl
    | dir nm kids =>
      cases ns with
      | nil => rfl
      | cons m ms => rfl

theorem findKid_cons (x : List Char) (k : Node) (ks : List Node) :
    findKid x (k :: ks) = if k.name = x then some k else findKid x ks := rfl

theorem findKid_filter (n x : List Char) (hx : x ≠ n) :
    ∀ kids : List Node, findKid x (kids.filter (fun k => k.name != n)) = findKid x kids := by
  intro kids
  induction kids with
  | nil => rfl
  | cons k ks ih =>
    by_cases hk : k.name = n
    · have h1 : (k.name != n) = false := by simp [hk]
      have h2 : ¬ k.name = x := fun e => hx (e ▸ hk)
      simp only [List.filter_cons, h1, Bool.false_eq_true, if_false]
      rw [findKid_cons, if_neg h2, ih]
    · have h1 : (k.name != n) = true := by simp [hk]
      simp only [List.filter_cons, h1, if_true]
      rw [findKid_cons, findKid_cons, ih]

theorem findKid_filter_self (n : List Char) :
    ∀ kids : List Node, findKid n (kids.filter (fun k => k.name != n)) = none := by
  intro kids
  induction kids with
  | nil => rfl
  | cons k ks ih =>
    by_cases hk : k.name = n
    · have h1 : (k.name != n) = false := by simp [hk]
      simp only [List.filter_cons, h1, Bool.false_eq_true, if_false]
      exact ih
    · have h1 : (k.name != n) = true := by simp [hk]
      simp only [List.filter_cons, h1, if_true]
      rw [findKid_cons, if_neg hk, ih]

theorem findKid_map (f : Node → Node) (hf : ∀ k, (f k).name = k.name) (x : List Char) :
    ∀ kids : List Node, findKid x (kids.map f) = (findKid x kids).map f := by
  intro kids
  induction kids with
  | nil => rfl
  | cons k ks ih =>
    rw [List.map_cons, findKid_cons, findKid_cons, hf]
    by_cases hk : k.name = x
    · rw [if_pos hk, if_pos hk]; rfl
    · rw [if_neg hk, if_neg hk, ih]

theorem lookup_nil (t : Node) : lookup t [] = some t := by
  cases t <;> rfl

theorem kindAt_nil (t : Node) : kindAt t [] = some t.isDir := by
  rw [kindAt, lookup_nil]; rfl

theorem kindAt_cons_dir (nm : List Char) (kids : List Node) (x : List Char)
    (xs : List (List Char)) :
    kindAt (.dir nm kids) (x :: xs) = (findKid x kids).bind (fun k => kindAt k xs) := by
  unfold kindAt
  rw [lookup]
  cases findKid x kids <;> rfl

theorem kindAt_cons_nondir (t : Node) (x : List Char) (xs : List (List Char))
    (h : ∀ nm kids, t ≠ .dir nm kids) : kindAt t (x :: xs) = none := by
  cases t with
  | dir nm kids => exact absurd rfl (h nm kids)
  | file _ => rfl
  | noread _ _ => rfl
  | nostat _ _ _ => rfl

/-- After the removal of the entry at `c` the entries at and below `c` are
gone and every other entry is of the kind it was. -/
theorem kindAt_removeAt (c : List (List Char)) (hc : c ≠ []) :
    ∀ (t : Node) (q : List (List Char)),
      kindAt (removeAt t c) q = if c <+: q then none else kindAt t q := by
  induction c with
  | nil => exact absurd rfl hc
  | cons n ns ih =>
    intro t q
    cases q with
    | nil =>
      have : ¬ (n :: ns <+: []) := by simp
      rw [if_neg this, kindAt_nil, kindAt_nil]
      cases t with
      | file _ => rfl
      | noread _ _ => rfl
      | nostat _ _ _ => rfl
      | dir nm kids => cases ns <;> rfl
    | cons x xs =>
      cases t with
      | file _ => simp [removeAt, kindAt_cons_nondir]
      | noread _ _ => simp [removeAt, kindAt_cons_nondir]
      | nostat _ _ _ => simp [removeAt, kindAt_cons_nondir]
      | dir nm kids =>
        cases ns with
        | nil =>
          rw [removeAt, kindAt_cons_dir, kindAt_cons_dir]
          by_cases hx : x = n
          · subst hx
            rw [findKid_filter_self]
            simp
          · rw [findKid_filter n x hx]
            have : ¬ ([n] <+: x :: xs) := by
              rw [List.cons_prefix_cons]
              exact fun h => hx h.1.symm
            rw [if_neg this]
        | cons m ms =>
          rw [removeAt, kindAt_cons_dir, kindAt_cons_dir,
            findKid_map _ (fun k => by split <;> simp [removeAt_name])]
          cases hk : findKid x kids with
          | none => simp
          | some k =>
            have hkn := (findKid_some x kids k hk).2
            simp only [Option.map_some', Option.some_bind]
            by_cases hx : x = n
            · subst hx
              rw [if_pos hkn, ih (by simp)]
              by_cases hp : m :: ms <+: xs
              · rw [if_pos hp, if_pos (List.cons_prefix_cons.2 ⟨rfl, hp⟩)]
              · rw [if_neg hp, if_neg (fun h => hp (List.cons_prefix_cons.1 h).2)]
            · have : ¬ k.name = n := fun e => hx (hkn ▸ e)
              rw [if_neg this, if_neg (fun h => hx (List.cons_prefix_cons.1 h).1.symm)]

theorem soundKids_cons (k : Node) (ks : List Node) :
    soundKids (k :: ks) = true ↔
      isName k.name = true ∧ k.name ∉ ks.map Node.name ∧ k.sound = true ∧
        soundKids ks = true := by
  rw [soundKids]
  simp [and_assoc]

theorem soundKids_mem :
    ∀ (kids : List Node), soundKids kids = true →
      ∀ k ∈ kids, isName k.name = true ∧ k.sound = true := by
  intro kids
  induction kids with
  | nil => intro _ k hk; simp at hk
  | cons x xs ih =>
    intro h k hk
    rw [soundKids_cons] at h
    rcases List.mem_cons.1 hk with rfl | hk
    · exact ⟨h.1, h.2.2.1⟩
    · exact ih h.2.2.2 k hk

theorem soundKids_filter (p : Node → Bool) :
    ∀ kids : List Node, soundKids kids = true → soundKids (kids.filter p) = true := by
  intro kids
  induction kids with
  | nil => intro h; exact h
  | cons k ks ih =>
    intro h
    rw [soundKids_cons] at h
    rw [List.filter_cons]
    split
    · rw [soundKids_cons]
      refine ⟨h.1, ?_, h.2.2.1, ih h.2.2.2⟩
      intro hmem
      apply h.2.1
      rw [List.mem_map] at hmem ⊢
      obtain ⟨a, ha, hn⟩ := hmem
      exact ⟨a, (List.mem_filter.1 ha).1, hn⟩
    · exact ih h.2.2.2

theorem soundKids_map (f : Node → Node) (hf : ∀ k, (f k).name = k.name) :
    ∀ kids : List Node, (∀ k ∈ kids, k.sound = true → (f k).sound = true) →
      soundKids kids = true → soundKids (kids.map f) = true := by
  intro kids
  induction kids with
  | nil => intro _ h; exact h
  | cons k ks ih =>
    intro hs h
    rw [soundKids_cons] at h
    rw [List.map_cons, soundKids_cons, hf]
    refine ⟨h.1, ?_, hs k (by simp) h.2.2.1, ih (fun a ha => hs a (by simp [ha])) h.2.2.2⟩
    intro hmem
    apply h.2.1
    rw [List.mem_map] at hmem ⊢
    obtain ⟨a, ha, hn⟩ := hmem
    rw [List.mem_map] at ha
    obtain ⟨b, hb, rfl⟩ := ha
    exact ⟨b, hb, by rw [← hn, hf]⟩

/-- Removing an entry keeps the tree sound. -/
theorem sound_removeAt (c : List (List Char)) :
    ∀ t : Node, t.sound = true → (removeAt t c).sound = true := by
  induction c with
  | nil => intro t h; rw [removeAt_nil]; exact h
  | cons n ns ih =>
    intro t h
    cases t with
    | file _ => exact h
    | noread _ _ => exact h
    | nostat _ _ _ => exact h
    | dir nm kids =>
      rw [Node.sound] at h
      cases ns with
      | nil =>
        rw [removeAt, Node.sound]
        exact soundKids_filter _ kids h
      | cons m ms =>
        rw [removeAt, Node.sound]
        apply soundKids_map _ (fun k => by split <;> simp [removeAt_name]) kids _ h
        intro k _ hk
        split
        · exact ih k hk
        · exact hk

theorem lookup_sound (q : List (List Char)) :
    ∀ (t n : Node), t.sound = true → lookup t q = some n → n.sound = true := by
  induction q with
  | nil =>
    intro t n h hl
    rw [lookup_nil] at hl
    simp only [Option.some.injEq] at hl
    exact hl ▸ h
  | cons x xs ih =>
    intro t n h hl
    cases t with
    | file _ => simp [lookup] at hl
    | noread _ _ => simp [lookup] at hl
    | nostat _ _ _ => simp [lookup] at hl
    | dir nm kids =>
      rw [lookup] at hl
      cases hk : findKid x kids with
      | none => simp [hk] at hl
      | some k =>
        simp only [hk] at hl
        rw [Node.sound] at h
        exact ih k n (soundKids_mem kids h k (findKid_some x kids k hk).1).2 hl

mutual
theorem sound_wellFormed : ∀ t : Node, t.sound = true → t.wellFormed = true
  | .file _, _ => rfl
  | .noread _ _, _ => rfl
  | .nostat _ _ _, _ => rfl
  | .dir _ kids, h => by
    rw [Node.sound] at h
    rw [Node.wellFormed]
    exact soundKids_wellFormedKids kids h
theorem soundKids_wellFormedKids : ∀ kids : List Node, soundKids kids = true →
    wellFormedKids kids = true
  | [], _ => rfl
  | k :: ks, h => by
    rw [soundKids_cons] at h
    rw [wellFormedKids]
    simp [h.1, sound_wellFormed k h.2.2.1, soundKids_wellFormedKids ks h.2.2.2]
end

theorem findKid_of_mem :
    ∀ (kids : List Node), soundKids kids = true → ∀ k ∈ kids, findKid k.name kids = some k := by
  intro kids
  induction kids with
  | nil => intro _ k hk; simp at hk
  | cons x xs ih =>
    intro h k hk
    rw [soundKids_cons] at h
    rw [findKid_cons]
    rcases List.mem_cons.1 hk with rfl | hk
    · simp
    · have : ¬ x.name = k.name := by
        intro e
        apply h.2.1
        rw [e]
        exact List.mem_map_of_mem _ hk
      rw [if_neg this]
      exact ih h.2.2.2 k hk

/-- The entries above an entry are listed directories. -/
theorem lookup_prefix_dir (a : List (List Char)) :
    ∀ (t n : Node) (x : List Char) (r : List (List Char)),
      lookup t (a ++ x :: r) = some n → ∃ nm kids, lookup t a = some (.dir nm kids) := by
  intro t n x r h
  rw [lookup_append] at h
  cases ha : lookup t a with
  | none => simp [ha] at h
  | some t1 =>
    simp only [ha, Option.some_bind] at h
    cases t1 with
    | file _ => simp [lookup] at h
    | noread _ _ => simp [lookup] at h
    | nostat _ _ _ => simp [lookup] at h
    | dir nm kids => exact ⟨nm, kids, rfl⟩

theorem Clean_Join (dest rel : List Char) (hrel : rel ≠ []) :
    Clean (Join [dest, rel]) = Join [dest, rel] := by
  cases dest with
  | nil =>
    cases rel with
    | nil => exact absurd rfl hrel
    | cons c cs =>
      have : Join [[], c :: cs] = Clean (c :: cs) := rfl
      rw [this, Clean_idem]
  | cons d ds =>
    have : Join [d :: ds, rel] = Clean ((d :: ds) ++ '/' :: rel) := rfl
    rw [this, Clean_idem]

theorem isRelNames_ne (rel : List Char) (h : isRelNames rel = true) :
    rel ≠ [] ∧ rel ≠ ['.'] := by
  constructor
  · rintro rfl; exact absurd h (by decide)
  · rintro rfl; exact absurd h (by decide)

theorem stripBelow_below (dir rel : List Char) : stripBelow dir (below dir rel) = some rel := by
  unfold stripBelow below
  by_cases h1 : dir = ['/']
  · simp [h1]
  · by_cases h2 : dir = ['.']
    · simp [h2]
    · rw [if_neg h1, if_neg h2, if_neg h1, if_neg h2]
      have hp : ((dir ++ ['/']).isPrefixOf (dir ++ '/' :: rel)) = true := by
        rw [List.isPrefixOf_iff_prefix]
        exact ⟨rel, by simp⟩
      rw [if_pos hp]
      congr 1
      have : dir ++ '/' :: rel = (dir ++ ['/']) ++ rel := by simp
      rw [this]
      exact List.drop_left' (by simp)

/-- A relative path of file names below the destination resolves to its
names. -/
theorem resolve_below (dest rel : List Char) (h : isRelNames rel = true) :
    resolve dest (below (Clean dest) rel) = some (splitSlash rel) := by
  obtain ⟨hne, hdot⟩ := isRelNames_ne rel h
  have hC : Clean (below (Clean dest) rel) = below (Clean dest) rel := by
    rw [← Join_rel dest rel h]
    exact Clean_Join dest rel hne
  have hD : below (Clean dest) rel ≠ Clean dest := by
    unfold below
    split
    · rename_i h1
      rw [h1]
      intro e
      simp at e
      exact hne e
    · split
      · rename_i h2
        rw [h2]
        exact hdot
      · intro e
        have := congrArg List.length e
        simp at this
  rw [resolve, hC, if_neg hD, stripBelow_below]
  simp only [h, if_true]

theorem lookup_none_of_prefix (t : Node) (c q : List (List Char)) (hc : lookup t c = none)
    (hq : c <+: q) : lookup t q = none := by
  obtain ⟨r, rfl⟩ := hq
  rw [lookup_append, hc]
  rfl

theorem sound_kind (n : Node) (h : n.sound = true) :
    (∃ nm, n = .file nm) ∨ (∃ nm kids, n = .dir nm kids) := by
  cases n with
  | file nm => exact Or.inl ⟨nm, rfl⟩
  | dir nm kids => exact Or.inr ⟨nm, kids, rfl⟩
  | noread _ _ => simp [Node.sound] at h
  | nostat _ _ _ => simp [Node.sound] at h

theorem lookup_mem_links (links : List (List (List Char) × Option Bool))
    (pre : List (List Char)) (x : Option Bool) (h : links.lookup pre = some x) :
    (pre, x) ∈ links := by
  induction links with
  | nil => simp [List.lookup] at h
  | cons l ls ih =>
    obtain ⟨a, b⟩ := l
    rw [List.lookup] at h
    by_cases hab : (pre == a) = true
    · simp only [hab] at h
      have hpa : pre = a := by simpa using hab
      simp only [Option.some.injEq] at h
      subst h
      subst hpa
      exact List.mem_cons_self _ _
    · have hab2 : (pre == a) = false := by simpa using hab
      simp only [hab2] at h
      exact List.mem_cons_of_mem _ (ih h)

/-- Where a tree whose entries can all be examined has an entry, `os.Stat`
finds one, unless it is a symbolic link that leads nowhere. -/
theorem statAt_of_lookup_some (links : List (List (List Char) × Option Bool))
    (closed : List (List (List Char)))
    (hl : ∀ l ∈ links, l.2.isSome = true) (names : List (List Char)) :
    ∀ (pre : List (List Char)) (t n : Node), t.sound = true → lookup t names = some n →
      ∃ d, statAt links closed pre t names = .ok d := by
  induction names with
  | nil =>
    intro pre t n hs _
    cases t with
    | file _ =>
      rw [statAt]
      cases hx : links.lookup pre with
      | none => exact ⟨false, rfl⟩
      | some x =>
        cases x with
        | none =>
          have := hl _ (lookup_mem_links links pre none hx)
          simp at this
        | some d => exact ⟨d, rfl⟩
    | dir _ _ => exact ⟨true, rfl⟩
    | noread _ _ => simp [Node.sound] at hs
    | nostat _ _ _ => simp [Node.sound] at hs
  | cons x xs ih =>
    intro pre t n hs h
    cases t with
    | file _ => simp [lookup] at h
    | noread _ _ => simp [lookup] at h
    | nostat _ _ _ => simp [lookup] at h
    | dir nm kids =>
      rw [lookup] at h
      rw [statAt]
      cases hk : findKid x kids with
      | none => simp [hk] at h
      | some k =>
        simp only [hk] at h ⊢
        rw [Node.sound] at hs
        exact ih _ k n (soundKids_mem kids hs k (findKid_some x kids k hk).1).2 h

theorem treeHost_stat (shell : Cmd → FS → FS × Option Err) (goos goarch dest : List Char)
    (built : Node) (fs : FS) (rel : List Char) (hrel : isRelNames rel = true) :
    (treeHost shell goos goarch dest built).stat fs (below (Clean dest) rel)
      = fs.stat (splitSlash rel) := by
  show (match resolve dest (below (Clean dest) rel) with
    | none => StatResult.notExist "no such file or directory".toList
    | some names => fs.stat names) = _
  rw [resolve_below dest rel hrel]

theorem treeHost_delete (shell : Cmd → FS → FS × Option Err) (goos goarch dest : List Char)
    (built : Node) (d : Bool) (p : List Char) (fs : FS) :
    (treeHost shell goos goarch dest built).run (deleteCmd d p) fs = shell (deleteCmd d p) fs := by
  cases d <;> rfl

/-- On the tree file system, a call of `osAwareRemoveAll` that returns nil
for a path below the destination leaves the tree without the entries at and
below that path and with every other entry as it was, when no symbolic link
leads nowhere and the commands of the Windows branch remove what
`os.RemoveAll` removes. -/
theorem treeHost_osAwareRemoveAll (shell : Cmd → FS → FS × Option Err)
    (goos goarch dest : List Char) (built : Node)
    (hshell : goos = "windows".toList →
      ∀ d p fs, shell (deleteCmd d p) fs = FS.remove dest p fs)
    (rel : List Char) (hrel : isRelNames rel = true)
    (w w1 : World FS) (t : Node) (ht : w.fs.tree = some t) (hs : t.sound = true)
    (hl : ∀ l ∈ w.fs.links, l.2.isSome = true)
    (hrun : osAwareRemoveAll (treeHost shell goos goarch dest built) (below (Clean dest) rel) w
      = (w1, none)) :
    ∃ t1, w1.fs.tree = some t1 ∧ t1.sound = true ∧ w1.fs.links = w.fs.links ∧
      ∀ q, kindAt t1 q = if splitSlash rel <+: q then none else kindAt t q := by
  unfold osAwareRemoveAll at hrun
  rw [treeHost_stat shell goos goarch dest built w.fs rel hrel] at hrun
  have hstat : w.fs.stat (splitSlash rel) = statAt w.fs.links w.fs.closed [] t (splitSlash rel) := by
    rw [FS.stat, ht]
  rcases hst : w.fs.stat (splitSlash rel) with d | e | e
  · -- the path is there: it is removed
    rw [hst] at hrun
    have hdel : (if (treeHost shell goos goarch dest built).goos = "windows".toList then
          ((treeHost shell goos goarch dest built).run
            (deleteCmd d (below (Clean dest) rel)) w.fs)
        else (treeHost shell goos goarch dest built).removeAll (below (Clean dest) rel) w.fs)
        = FS.remove dest (below (Clean dest) rel) w.fs := by
      have hg : (treeHost shell goos goarch dest built).goos = goos := rfl
      rw [hg]
      by_cases hwin : goos = "windows".toList
      · rw [if_pos hwin, treeHost_delete, hshell hwin]
      · rw [if_neg hwin]
        rfl
    have hrun2 : w1.fs = (FS.remove dest (below (Clean dest) rel) w.fs).1 ∧
        (FS.remove dest (below (Clean dest) rel) w.fs).2 = none := by
      rw [← hdel]
      simp only at hrun
      split at hrun
      · rename_i hw
        rw [if_pos hw]
        simp only [Prod.mk.injEq] at hrun
        obtain ⟨h1, h2⟩ := hrun
        refine ⟨?_, h2⟩
        rw [← h1]
      · rename_i hw
        rw [if_neg hw]
        simp only [Prod.mk.injEq] at hrun
        obtain ⟨h1, h2⟩ := hrun
        refine ⟨?_, h2⟩
        rw [← h1]
    obtain ⟨hw1, herr⟩ := hrun2
    unfold FS.remove at hw1 herr
    rw [resolve_below dest rel hrel] at hw1 herr
    split at herr
    · simp at herr
    · rename_i hlock
      rw [if_neg hlock] at hw1
      cases hc : splitSlash rel with
      | nil => exact absurd hc (splitSlash_ne_nil rel)
      | cons x xs =>
        rw [hc] at hw1
        simp only at hw1
        refine ⟨removeAt t (x :: xs), ?_, sound_removeAt _ t hs, ?_, fun q => ?_⟩
        · rw [hw1]
          simp [ht]
        · rw [hw1]
        · exact kindAt_removeAt (x :: xs) (by simp) t q
  · -- the path is not there: nothing is done
    rw [hst] at hrun
    simp only [Prod.mk.injEq, and_true] at hrun
    subst hrun
    have hnone : lookup t (splitSlash rel) = none := by
      cases hlk : lookup t (splitSlash rel) with
      | none => rfl
      | some n =>
        obtain ⟨d, hd⟩ := statAt_of_lookup_some w.fs.links w.fs.closed hl _ [] t n hs hlk
        rw [← hstat, hst] at hd
        simp at hd
    refine ⟨t, ht, hs, rfl, fun q => ?_⟩
    by_cases hq : splitSlash rel <+: q
    · rw [if_pos hq, kindAt, lookup_none_of_prefix t _ q hnone hq]
      rfl
    · rw [if_neg hq]
  · rw [hst] at hrun
    simp at hrun

theorem namesOf_below (dest rel : List Char) (hrel : isRelNames rel = true) :
    namesOf dest (below (Clean dest) rel) = splitSlash rel := by
  rw [namesOf, resolve_below dest rel hrel]
  rfl

/-- On the tree file system, a removal loop over paths below the destination
that comes to its end leaves the tree without the entries at and below those
paths and with every other entry as it was, when no symbolic link leads
nowhere and the commands of the Windows branch remove what `os.RemoveAll`
removes. -/
theorem treeHost_removeEach (shell : Cmd → FS → FS × Option Err)
    (goos goarch dest : List Char) (built : Node)
    (hshell : goos = "windows".toList →
      ∀ d p fs, shell (deleteCmd d p) fs = FS.remove dest p fs)
    (ps : List (List Char)) :
    (∀ p ∈ ps, StrictlyUnder dest p) →
    ∀ (w w1 : World FS) (t : Node), w.fs.tree = some t → t.sound = true →
      (∀ l ∈ w.fs.links, l.2.isSome = true) →
      removeEach (treeHost shell goos goarch dest built) ps w = .ok w1 →
      ∃ t1, w1.fs.tree = some t1 ∧ t1.sound = true ∧ w1.fs.links = w.fs.links ∧
        ∀ q, kindAt t1 q = if removedBy dest ps q = true then none else kindAt t q := by
  induction ps with
  | nil =>
    intro _ w w1 t ht hs _ hrun
    simp only [removeEach, Except.ok.injEq] at hrun
    subst hrun
    exact ⟨t, ht, hs, rfl, fun q => by simp [removedBy]⟩
  | cons p ps ih =>
    intro hps w w1 t ht hs hl hrun
    obtain ⟨rel, hrel, rfl⟩ := hps p (by simp)
    rw [removeEach] at hrun
    rcases hr : osAwareRemoveAll (treeHost shell goos goarch dest built)
        (below (Clean dest) rel) w with ⟨wa, _ | err⟩
    · rw [hr] at hrun
      simp only at hrun
      obtain ⟨ta, hta, hsa, hla, hka⟩ :=
        treeHost_osAwareRemoveAll shell goos goarch dest built hshell rel hrel w wa t ht hs hl hr
      obtain ⟨t1, ht1, hs1, hl1, hk1⟩ := ih (fun x hx => hps x (by simp [hx])) wa w1 ta hta hsa
        (by rw [hla]; exact hl) hrun
      refine ⟨t1, ht1, hs1, by rw [hl1, hla], fun q => ?_⟩
      rw [hk1 q, hka q]
      simp only [removedBy, List.any_cons, namesOf_below dest rel hrel, Bool.or_eq_true,
        List.isPrefixOf_iff_prefix]
      by_cases h1 : splitSlash rel <+: q
      · simp [h1]
      · simp [h1]
    · rw [hr] at hrun
      simp at hrun
/-! ## Theorems: the collected paths, by names -/

theorem HasSuffix_of_append (p n suf : List Char) (hs : '/' ∉ suf)
    (h : HasSuffix (p ++ '/' :: n) suf = true) : HasSuffix n suf = true := by
  unfold HasSuffix at h ⊢
  rw [List.isPrefixOf_iff_prefix] at h ⊢
  have hrev : (p ++ '/' :: n).reverse = n.reverse ++ '/' :: p.reverse := by simp
  rw [hrev] at h
  exact prefix_of_prefix_append_sep _ _ _ '/' (by simpa using hs) h

theorem flat_concat (mid : List (List Char)) (n : List Char) :
    flat (mid ++ [n]) = flat mid ++ '/' :: n := by
  rw [flat_append]
  simp [flat]

mutual
/-- Every collected path is the path of an entry of the tree, reached through
names none of which is `testdata`: a directory with base name `testdata`
or a non-directory whose path ends in `_test.go`. -/
theorem collect_char : ∀ (t : Node) (path : List Char), GoodDir path →
    t.sound = true → ∀ p ∈ collect path t,
      ∃ ms : List (List Char), (∀ m ∈ ms, isName m = true) ∧ p = path ++ flat ms ∧
        "testdata".toList ∉ ms.dropLast ∧ (ms ≠ [] → Base path ≠ "testdata".toList) ∧
        ∃ d, kindAt t ms = some d ∧
          ((d = true ∧ Base p = "testdata".toList) ∨
            (d = false ∧ HasSuffix p "_test.go".toList = true))
  | .file nm, path, _, _, p, hp => by
    rw [collect] at hp
    split at hp
    · rename_i hsuf
      simp only [List.mem_singleton] at hp
      subst hp
      exact ⟨[], by simp, by simp [flat], by simp, by simp, false, rfl, Or.inr ⟨rfl, hsuf⟩⟩
    · simp at hp
  | .noread _ _, path, _, hs, p, hp => by simp [Node.sound] at hs
  | .nostat _ _ _, path, _, hs, p, hp => by simp [Node.sound] at hs
  | .dir nm kids, path, hg, hs, p, hp => by
    rw [collect] at hp
    split at hp
    · rename_i hb
      simp only [List.mem_singleton] at hp
      subst hp
      exact ⟨[], by simp, by simp [flat], by simp, by simp, true, rfl,
        Or.inl ⟨rfl, by simpa using hb⟩⟩
    · rename_i hb
      have hb2 : Base path ≠ "testdata".toList := by simpa using hb
      rw [Node.sound] at hs
      obtain ⟨ms, _, h2, h3, h4, h5⟩ := collectKids_char kids path nm hg hs p hp
      exact ⟨ms, h2, h3, h4, fun _ => hb2, h5⟩
theorem collectKids_char : ∀ (kids : List Node) (path nm : List Char), GoodDir path →
    soundKids kids = true → ∀ p ∈ collectKids path kids,
      ∃ ms : List (List Char), ms ≠ [] ∧ (∀ m ∈ ms, isName m = true) ∧ p = path ++ flat ms ∧
        "testdata".toList ∉ ms.dropLast ∧
        ∃ d, kindAt (.dir nm kids) ms = some d ∧
          ((d = true ∧ Base p = "testdata".toList) ∨
            (d = false ∧ HasSuffix p "_test.go".toList = true))
  | [], path, _, _, _, p, hp => by simp [collectKids] at hp
  | k :: ks, path, nm, hg, hs, p, hp => by
    rw [soundKids_cons] at hs
    rw [collectKids] at hp
    rcases List.mem_append.1 hp with hp | hp
    · obtain ⟨hJ, hG⟩ := Join_name path k.name hg hs.1
      obtain ⟨ms, h1, h2, h3, h4, d, h5, h6⟩ :=
        collect_char k (Join [path, k.name]) (hJ ▸ hG) hs.2.2.1 p hp
      refine ⟨k.name :: ms, by simp, ?_, ?_, ?_, d, ?_, h6⟩
      · intro m hm
        rcases List.mem_cons.1 hm with rfl | hm
        · exact hs.1
        · exact h1 m hm
      · rw [h2, hJ, flat_cons]; simp
      · cases ms with
        | nil => simp
        | cons m ms =>
          rw [List.dropLast_cons₂]
          intro hmem
          rcases List.mem_cons.1 hmem with e | hmem
          · have := h4 (by simp)
            rw [hJ, Base_append_name path k.name hs.1] at this
            exact this e.symm
          · exact h3 hmem
      · rw [kindAt_cons_dir, findKid_cons, if_pos rfl]
        exact h5
    · obtain ⟨ms, h1, h2, h3, h4, d, h5, h6⟩ :=
        collectKids_char ks path nm hg hs.2.2.2 p hp
      refine ⟨ms, h1, h2, h3, h4, d, ?_, h6⟩
      cases ms with
      | nil => exact absurd rfl h1
      | cons x xs =>
        rw [kindAt_cons_dir] at h5 ⊢
        rw [findKid_cons]
        rcases hf : findKid x ks with _ | k2
        · simp [hf] at h5
        · obtain ⟨hmem, hname⟩ := findKid_some x ks k2 hf
          have : ¬ k.name = x := by
            intro e
            apply hs.2.1
            rw [e, ← hname]
            exact List.mem_map_of_mem _ hmem
          rw [if_neg this]
          rw [hf] at h5
          exact h5
end

theorem lookup_names (q : List (List Char)) :
    ∀ (t n : Node), t.wellFormed = true → lookup t q = some n →
      ∀ m ∈ q, isName m = true := by
  induction q with
  | nil => intro _ _ _ _ m hm; simp at hm
  | cons x xs ih =>
    intro t n h hl
    cases t with
    | file _ => simp [lookup] at hl
    | noread _ _ => simp [lookup] at hl
    | nostat _ _ _ => simp [lookup] at hl
    | dir nm kids =>
      rw [lookup] at hl
      rcases hk : findKid x kids with _ | k
      · simp [hk] at hl
      · simp only [hk] at hl
        obtain ⟨hmem, hname⟩ := findKid_some x kids k hk
        rw [Node.wellFormed] at h
        obtain ⟨h1, h2⟩ := wellFormedKids_mem kids h k hmem
        intro m hm
        rcases List.mem_cons.1 hm with rfl | hm
        · rw [← hname]; exact h1
        · exact ih k n h2 hl m hm

theorem root_not_test (dest : List Char) :
    HasSuffix (Join [dest, "src".toList]) "_test.go".toList = false := by
  rw [Join_rel dest _ (by decide), below]
  split
  · decide
  · split
    · decide
    · unfold HasSuffix
      rw [List.reverse_append]
      simp [List.isPrefixOf]

theorem treeHost_tree (shell : Cmd → FS → FS × Option Err) (goos goarch dest : List Char)
    (built : Node) (fs : FS) (t1 : Node)
    (ht : fs.tree = some t1) :
    (treeHost shell goos goarch dest built).tree fs (Join [dest, "src".toList]) =
      match lookup t1 ["src".toList] with
      | some n => n
      | none => .nostat (Base (Join [dest, "src".toList])) false "no such file or directory".toList := by
  show (match (resolve dest (Join [dest, "src".toList])).bind fs.entry with
    | some n => n
    | none => Node.nostat (Base (Join [dest, "src".toList])) false _) = _
  rw [Join_rel dest _ (by decide), resolve_below dest _ (by decide)]
  have : splitSlash "src".toList = ["src".toList] := by decide
  rw [this]
  simp only [Option.some_bind, FS.entry, ht]

theorem root_path (dest : List Char) (ms : List (List Char)) (hne : ms ≠ []) :
    Join [dest, "src".toList] ++ flat ms
      = below (Clean dest) (joinSlash ("src".toList :: ms)) := by
  rw [Join_rel dest _ (by decide), below_append, flat_eq_joinSlash ms hne]
  cases ms with
  | nil => exact absurd rfl hne
  | cons m ms => rw [joinSlash_cons]

theorem kindAt_src (t1 : Node) (ms : List (List Char)) :
    kindAt t1 ("src".toList :: ms) = (lookup t1 ["src".toList]).bind (fun n => kindAt n ms) := by
  have : "src".toList :: ms = ["src".toList] ++ ms := rfl
  rw [kindAt, this, lookup_append]
  cases lookup t1 ["src".toList] <;> rfl

/-- The paths that the walk on the tree file system collects are the entries
`src/mid/n` with no `testdata` in `mid` that are a directory named `testdata`
or a non-directory whose name ends in `_test.go`. -/
theorem scan_names (shell : Cmd → FS → FS × Option Err) (goos goarch dest : List Char)
    (built : Node) (fs : FS) (t1 : Node)
    (ht : fs.tree = some t1) (hs : t1.sound = true) :
    (∀ p ∈ scan (Join [dest, "src".toList])
        ((treeHost shell goos goarch dest built).tree fs (Join [dest, "src".toList])),
      ∃ mid n, p = below (Clean dest) (joinSlash ("src".toList :: (mid ++ [n]))) ∧
        (∀ m ∈ mid ++ [n], isName m = true) ∧ "testdata".toList ∉ mid ∧
        ∃ d, kindAt t1 ("src".toList :: (mid ++ [n])) = some d ∧
          ((d = true ∧ n = "testdata".toList) ∨
            (d = false ∧ HasSuffix n "_test.go".toList = true))) ∧
    (∀ mid n d, "testdata".toList ∉ mid →
      kindAt t1 ("src".toList :: (mid ++ [n])) = some d →
      ((d = true ∧ n = "testdata".toList) ∨
        (d = false ∧ HasSuffix n "_test.go".toList = true)) →
      below (Clean dest) (joinSlash ("src".toList :: (mid ++ [n])))
        ∈ scan (Join [dest, "src".toList])
          ((treeHost shell goos goarch dest built).tree fs (Join [dest, "src".toList]))) := by
  have hroot := GoodDir_root dest
  rw [treeHost_tree shell goos goarch dest built fs t1 ht]
  constructor
  · intro p hp
    rcases hl : lookup t1 ["src".toList] with _ | n1
    · rw [hl, scan_eq_collect] at hp
      simp [collect] at hp
    · rw [hl, scan_eq_collect] at hp
      simp only at hp
      have hs1 := lookup_sound _ t1 n1 hs hl
      obtain ⟨ms, h1, h2, h3, _, d, h5, h6⟩ := collect_char n1 _ hroot hs1 p hp
      rcases List.eq_nil_or_concat ms with hnil | ⟨mid, n, hmn⟩
      · exfalso
        subst hnil
        have hp2 : p = Join [dest, "src".toList] := by simpa [flat] using h2
        rcases h6 with ⟨_, hb⟩ | ⟨_, hsuf⟩
        · rw [hp2, Base_root] at hb
          exact absurd hb (by decide)
        · rw [hp2, root_not_test] at hsuf
          exact absurd hsuf (by decide)
      · rw [List.concat_eq_append] at hmn
        subst hmn
        have hn : isName n = true := h1 n (by simp)
        have hp3 : p = (Join [dest, "src".toList] ++ flat mid) ++ '/' :: n := by
          rw [h2, flat_concat]; simp
        refine ⟨mid, n, ?_, h1, ?_, d, ?_, ?_⟩
        · rw [h2]; exact root_path dest _ (by simp)
        · simpa using h3
        · rw [kindAt_src, hl]; exact h5
        · rcases h6 with ⟨hd, hb⟩ | ⟨hd, hsuf⟩
          · left
            rw [hp3, Base_append_name _ n hn] at hb
            exact ⟨hd, hb⟩
          · right
            rw [hp3] at hsuf
            exact ⟨hd, HasSuffix_of_append _ n _ (by decide) hsuf⟩
  · intro mid n d hmid hk hkind
    rw [kindAt_src] at hk
    rcases hl : lookup t1 ["src".toList] with _ | n1
    · rw [hl] at hk
      exact absurd hk (by simp)
    · rw [hl] at hk
      simp only [Option.some_bind, kindAt, Option.map_eq_some'] at hk
      obtain ⟨node, hnode, hd⟩ := hk
      have hs1 := lookup_sound _ t1 n1 hs hl
      have hwf1 := sound_wellFormed n1 hs1
      have hnames := lookup_names _ n1 node hwf1 hnode
      have hmem := reached_entry_collected dest n1 mid n node hwf1 hmid hnode (by
        rcases sound_kind node (lookup_sound _ n1 node hs1 hnode) with ⟨nm, rfl⟩ | ⟨nm, kids, rfl⟩
        · right
          rcases hkind with ⟨h1, _⟩ | ⟨_, h2⟩
          · rw [h1] at hd; simp [Node.isDir] at hd
          · exact ⟨nm, rfl, h2⟩
        · left
          rcases hkind with ⟨_, h2⟩ | ⟨h1, _⟩
          · exact ⟨nm, kids, rfl, h2⟩
          · rw [h1] at hd; simp [Node.isDir] at hd)
      rw [(pathUnder_eq _ _ hroot hnames).1, root_path dest _ (by simp)] at hmem
      exact hmem

/-! ## Theorems: what is left after pruning -/

theorem prefix_first (x : List Char) (a a2 r r2 : List (List Char))
    (h : a ++ x :: r = a2 ++ x :: r2) (hx : x ∉ a2) : a2 ++ [x] <+: a ++ [x] := by
  have h1 : a <+: a ++ x :: r := List.prefix_append _ _
  have h2 : a2 <+: a ++ x :: r := h ▸ List.prefix_append _ _
  rcases List.prefix_or_prefix_of_prefix h1 h2 with h3 | h3
  · obtain ⟨s, rfl⟩ := h3
    cases s with
    | nil => simp
    | cons y ys =>
      exfalso
      rw [List.append_assoc, List.append_cancel_left_eq, List.cons_append, List.cons.injEq] at h
      exact hx (by simp [← h.1])
  · obtain ⟨s, rfl⟩ := h3
    cases s with
    | nil => simp
    | cons y ys =>
      rw [List.append_assoc, List.append_cancel_left_eq, List.cons_append, List.cons.injEq] at h
      rw [h.1, List.append_assoc, List.prefix_append_right_inj, List.cons_append,
        List.cons_prefix_cons]
      exact ⟨rfl, List.nil_prefix⟩

theorem kindAt_prefix_dir (t : Node) (c q : List (List Char)) (hq : (kindAt t q).isSome = true)
    (hc : c <+: q) (hne : c ≠ q) : kindAt t c = some true := by
  obtain ⟨r, rfl⟩ := hc
  cases r with
  | nil => exact absurd (by simp) hne
  | cons x r =>
    rcases hl : lookup t (c ++ x :: r) with _ | n
    · simp [kindAt, hl] at hq
    · obtain ⟨nm, kids, hd⟩ := lookup_prefix_dir c t n x r hl
      rw [kindAt, hd]
      rfl

/-- The entries left by two rounds of removal: the first takes what `S` marks;
the second takes the entries `src/mid/n`, with no `td` in `mid`, that in the
tree `t1` left by the first round are a directory named `td` or a
non-directory whose name satisfies `P`, and what is below them. -/
theorem frame_combine (src td : List Char) (P : List Char → Prop) (t t1 t2 : Node)
    (S C : List (List Char) → Bool)
    (hS : ∀ a q, a <+: q → S a = true → S q = true)
    (k1 : ∀ q, kindAt t1 q = if S q = true then none else kindAt t q)
    (k2 : ∀ q, kindAt t2 q = if C q = true then none else kindAt t1 q)
    (hC1 : ∀ q, C q = true → ∃ mid n, src :: (mid ++ [n]) <+: q ∧ td ∉ mid ∧
      ∃ d, kindAt t1 (src :: (mid ++ [n])) = some d ∧
        ((d = true ∧ n = td) ∨ (d = false ∧ P n)))
    (hC2 : ∀ mid n d q, td ∉ mid → kindAt t1 (src :: (mid ++ [n])) = some d →
      ((d = true ∧ n = td) ∨ (d = false ∧ P n)) → src :: (mid ++ [n]) <+: q → C q = true)
    (q : List (List Char)) :
    ((S q = true ∨
        (∃ mid rest, q = src :: (mid ++ td :: rest) ∧
          kindAt t (src :: (mid ++ [td])) = some true) ∨
        (∃ mid n, q = src :: (mid ++ [n]) ∧ P n ∧ kindAt t q = some false)) →
      kindAt t2 q = none) ∧
    (¬ (S q = true ∨
        (∃ mid rest, q = src :: (mid ++ td :: rest) ∧
          kindAt t (src :: (mid ++ [td])) = some true) ∨
        (∃ mid n, q = src :: (mid ++ [n]) ∧ P n ∧ kindAt t q = some false)) →
      kindAt t2 q = kindAt t q) := by
  have k1' : ∀ a, S a = false → kindAt t1 a = kindAt t a := by
    intro a ha; rw [k1 a, ha]; simp
  have hSfalse : ∀ a, a <+: q → S q = false → S a = false := by
    intro a ha hq
    cases hsa : S a with
    | false => rfl
    | true => rw [hS a q ha hsa] at hq; exact absurd hq (by simp)
  have hgone : C q = true → kindAt t2 q = none := by
    intro h; rw [k2 q, h]; simp
  have hdir : ∀ mid2 : List (List Char), td ∉ mid2 → src :: (mid2 ++ [td]) <+: q →
      S q = false → kindAt t (src :: (mid2 ++ [td])) = some true → kindAt t2 q = none := by
    intro mid2 hmid hpre hsq hk
    apply hgone
    apply hC2 mid2 td true q hmid _ (Or.inl ⟨rfl, rfl⟩) hpre
    rw [k1' _ (hSfalse _ hpre hsq)]
    exact hk
  constructor
  · intro hbad
    cases hsq : S q with
    | true =>
      rw [k2 q, k1 q, hsq]
      simp
    | false =>
      rcases hex : kindAt t q with _ | dq
      · rw [k2 q, k1' q hsq, hex]
        simp
      · have hsome : (kindAt t q).isSome = true := by rw [hex]; rfl
        rcases hbad with h | ⟨mid, rest, hq, hk⟩ | ⟨mid, n, hq, hP, hk⟩
        · rw [hsq] at h; exact absurd h (by simp)
        · obtain ⟨mid2, rest2, he, hnot⟩ :=
            List.eq_append_cons_of_mem (List.mem_append_cons_self : td ∈ mid ++ td :: rest)
          have hpre : mid2 ++ [td] <+: mid ++ [td] := prefix_first td mid mid2 rest rest2 he hnot
          have hcq : src :: (mid2 ++ [td]) <+: q := by
            rw [hq, he, List.cons_prefix_cons]
            exact ⟨rfl, ⟨rest2, by simp⟩⟩
          apply hdir mid2 hnot hcq hsq
          by_cases heq : mid2 ++ [td] = mid ++ [td]
          · rw [heq]; exact hk
          · exact kindAt_prefix_dir t _ (src :: (mid ++ [td])) (by rw [hk]; rfl)
              (List.cons_prefix_cons.2 ⟨rfl, hpre⟩) (fun e => heq (List.cons.inj e).2)
        · by_cases hmem : td ∈ mid
          · obtain ⟨mid2, rest2, he, hnot⟩ := List.eq_append_cons_of_mem hmem
            have hcq : src :: (mid2 ++ [td]) <+: q := by
              rw [hq, he, List.cons_prefix_cons]
              exact ⟨rfl, ⟨rest2 ++ [n], by simp⟩⟩
            apply hdir mid2 hnot hcq hsq
            apply kindAt_prefix_dir t _ q hsome hcq
            rw [hq, he]
            intro e
            have := congrArg List.length e
            simp at this
          · apply hgone
            apply hC2 mid n false q hmem _ (Or.inr ⟨rfl, hP⟩) (by rw [hq])
            rw [k1' _ (hSfalse _ (by rw [hq]) hsq), ← hq]
            exact hk
  · intro hgood
    simp only [not_or] at hgood
    obtain ⟨hs, htd, htf⟩ := hgood
    have hsq : S q = false := by simpa using hs
    rw [k2 q]
    cases hcq : C q with
    | false => simp [k1' q hsq]
    | true =>
      simp only [if_true]
      obtain ⟨mid, n, hpre, hmid, d, hk, hcond⟩ := hC1 q hcq
      have hsc : S (src :: (mid ++ [n])) = false := hSfalse _ hpre hsq
      rw [k1' _ hsc] at hk
      obtain ⟨r, hr⟩ := hpre
      rcases hcond with ⟨hd, hn⟩ | ⟨hd, hP⟩
      · exfalso
        subst hd hn
        exact htd ⟨mid, r, by rw [← hr]; simp, hk⟩
      · subst hd
        cases r with
        | nil =>
          exfalso
          rw [List.append_nil] at hr
          exact htf ⟨mid, n, hr.symm, hP, by rw [← hr]; exact hk⟩
        | cons x r =>
          rcases hex : kindAt t q with _ | dq
          · rfl
          · exfalso
            have := kindAt_prefix_dir t (src :: (mid ++ [n])) q (by rw [hex]; rfl) ⟨_, hr⟩
              (by
                rw [← hr]
                intro e
                have := congrArg List.length e
                simp at this)
            rw [hk] at this
            exact absurd this (by simp)

theorem removeEach_error_status {σ : Type} (h : Host σ) (ps : List (List Char)) :
    ∀ (w : World σ) (e : Exit σ), removeEach h ps w = .error e → e.status = 1 := by
  induction ps with
  | nil => intro w e he; simp [removeEach] at he
  | cons p ps ih =>
    intro w e he
    rw [removeEach] at he
    rcases hr : osAwareRemoveAll h p w with ⟨wa, _ | err⟩
    · rw [hr] at he
      exact ih wa e he
    · rw [hr] at he
      simp only [Except.error.injEq] at he
      rw [← he]
      rfl

theorem any_map_congr {α β : Type} (f : α → β) (p : β → Bool) (g : α → Bool) :
    ∀ L : List α, (∀ x ∈ L, p (f x) = g x) → (L.map f).any p = L.any g := by
  intro L
  induction L with
  | nil => intro _; rfl
  | cons x xs ih =>
    intro h
    rw [List.map_cons, List.any_cons, List.any_cons, h x (by simp),
      ih (fun y hy => h y (by simp [hy]))]

theorem removedBy_static (goos goarch dest : List Char) (hos : '/' ∉ goos)
    (harch : '/' ∉ goarch) (q : List (List Char)) :
    removedBy dest (staticNames goos goarch dest) q = underStatic goos goarch q := by
  unfold removedBy staticNames underStatic
  apply any_map_congr
  intro pat hpat
  have hrel := expand_isRelNames goos goarch hos harch pat hpat
  rw [Join_rel dest _ hrel, namesOf_below dest _ hrel]

theorem any_prefix_mono (L : List (List (List Char))) (a q : List (List Char)) (haq : a <+: q)
    (h : L.any (fun c => c.isPrefixOf a) = true) : L.any (fun c => c.isPrefixOf q) = true := by
  rw [List.any_eq_true] at h ⊢
  obtain ⟨c, hc, hp⟩ := h
  rw [List.isPrefixOf_iff_prefix] at hp
  exact ⟨c, hc, by rw [List.isPrefixOf_iff_prefix]; exact hp.trans haq⟩

theorem underStatic_mono (goos goarch : List Char) (a q : List (List Char)) (haq : a <+: q)
    (h : underStatic goos goarch a = true) : underStatic goos goarch q = true := by
  unfold underStatic at h ⊢
  rw [List.any_eq_true] at h ⊢
  obtain ⟨c, hc, hp⟩ := h
  rw [List.isPrefixOf_iff_prefix] at hp
  exact ⟨c, hc, by rw [List.isPrefixOf_iff_prefix]; exact hp.trans haq⟩

/-- C6 (as amended): on the tree file system, with platform identifiers free
of slashes, when every entry of the built tree can be examined, every
symbolic link in it leads to a file or an empty directory outside the tree,
the commands of the Windows branch remove what `os.RemoveAll` removes, and
pruning ends with status 0, an entry below the destination exists afterwards
exactly when it existed before and is neither at or below an expanded entry
of `alwaysRemove`, nor at or below a directory named `testdata` inside `src`,
nor a non-directory inside `src` whose name ends in `_test.go`; and an entry
that is left is of the kind it was. -/
theorem prune_frame (shell : Cmd → FS → FS × Option Err) (goos goarch dest : List Char)
    (built : Node)
    (hshell : goos = "windows".toList →
      ∀ d p fs, shell (deleteCmd d p) fs = FS.remove dest p fs)
    (hos : '/' ∉ goos) (harch : '/' ∉ goarch)
    (w : World FS) (t : Node) (ht : w.fs.tree = some t) (hs : t.sound = true)
    (hl : ∀ l ∈ w.fs.links, l.2.isSome = true)
    (hdone : (prune (treeHost shell goos goarch dest built) dest w).status = 0) :
    ∃ t2, (prune (treeHost shell goos goarch dest built) dest w).world.fs.tree = some t2 ∧
      ∀ q, ((kindAt t2 q).isSome = true ↔
              ((kindAt t q).isSome = true ∧ underStatic goos goarch q = false ∧
                ¬ underTestdata t q ∧ ¬ isTestFile t q)) ∧
            ((kindAt t2 q).isSome = true → kindAt t2 q = kindAt t q) := by
  have hprune := prune_eq (treeHost shell goos goarch dest built) dest w
  have hg : (treeHost shell goos goarch dest built).goos = goos := rfl
  have hga : (treeHost shell goos goarch dest built).goarch = goarch := rfl
  rw [hprune] at hdone ⊢
  rw [hg, hga] at hdone ⊢
  rcases h1 : removeEach (treeHost shell goos goarch dest built) (staticNames goos goarch dest) w
    with e | w1
  · rw [h1] at hdone
    simp only at hdone
    rw [removeEach_error_status _ _ w e h1] at hdone
    exact absurd hdone (by decide)
  · rw [h1] at hdone
    simp only at hdone ⊢
    obtain ⟨t1, ht1, hs1, hl1, k1⟩ := treeHost_removeEach shell goos goarch dest built hshell _
      (staticNames_strictlyUnder dest goos goarch hos harch) w w1 t ht hs hl h1
    obtain ⟨hC1, hC2⟩ := scan_names shell goos goarch dest built w1.fs t1 ht1 hs1
    generalize hCdef : scan (Join [dest, "src".toList])
      ((treeHost shell goos goarch dest built).tree w1.fs (Join [dest, "src".toList])) = Cs
      at hdone hC1 hC2 ⊢
    rcases h2 : removeEach (treeHost shell goos goarch dest built) Cs
        { w1 with trace := w1.trace ++ [.walk (Join [dest, "src".toList])] } with e | w2
    · rw [h2] at hdone
      simp only at hdone
      rw [removeEach_error_status _ _ _ e h2] at hdone
      exact absurd hdone (by decide)
    · simp only
      have hCs : ∀ p ∈ Cs, StrictlyUnder dest p := by
        intro p hp
        obtain ⟨mid, n, hpe, hnames, _, _⟩ := hC1 p hp
        refine ⟨_, isRelNames_joinSlash _ (by simp) ?_, hpe⟩
        intro m hm
        rcases List.mem_cons.1 hm with rfl | hm
        · decide
        · exact hnames m hm
      obtain ⟨t2, ht2, _, _, k2⟩ := treeHost_removeEach shell goos goarch dest built hshell
        Cs hCs { w1 with trace := w1.trace ++ [.walk (Join [dest, "src".toList])] } w2 t1 ht1
        hs1 (by rw [hl1]; exact hl) h2
      refine ⟨t2, ht2, fun q => ?_⟩
      have hnamesOf : ∀ mid n, (∀ m ∈ mid ++ [n], isName m = true) →
          namesOf dest (below (Clean dest) (joinSlash ("src".toList :: (mid ++ [n]))))
            = "src".toList :: (mid ++ [n]) := by
        intro mid n hnames
        have hall : ∀ m ∈ "src".toList :: (mid ++ [n]), isName m = true := by
          intro m hm
          rcases List.mem_cons.1 hm with rfl | hm
          · decide
          · exact hnames m hm
        rw [namesOf_below dest _ (isRelNames_joinSlash _ (by simp) hall),
          splitSlash_joinSlash _ (by simp) (names_noslash _ hall)]
      have hcomb := frame_combine "src".toList "testdata".toList
        (fun n => HasSuffix n "_test.go".toList = true) t t1 t2
        (underStatic goos goarch) (removedBy dest Cs)
        (underStatic_mono goos goarch)
        (fun q => by rw [k1 q, removedBy_static goos goarch dest hos harch])
        k2
        (by
          intro q hq
          unfold removedBy at hq
          rw [List.any_eq_true] at hq
          obtain ⟨p, hp, hpre⟩ := hq
          obtain ⟨mid, n, hpe, hnames, hmid, d, hk, hcond⟩ := hC1 p hp
          rw [hpe, hnamesOf mid n hnames, List.isPrefixOf_iff_prefix] at hpre
          exact ⟨mid, n, hpre, hmid, d, hk, hcond⟩)
        (by
          intro mid n d q hmid hk hcond hpre
          have hmem := hC2 mid n d hmid hk hcond
          unfold removedBy
          rw [List.any_eq_true]
          refine ⟨_, hmem, ?_⟩
          have hnames : ∀ m ∈ mid ++ [n], isName m = true := by
            have hsome : (lookup t1 ("src".toList :: (mid ++ [n]))).isSome = true := by
              rw [kindAt] at hk
              cases hl : lookup t1 ("src".toList :: (mid ++ [n])) with
              | none => rw [hl] at hk; simp at hk
              | some _ => rfl
            rcases hl : lookup t1 ("src".toList :: (mid ++ [n])) with _ | node
            · rw [hl] at hsome; simp at hsome
            · intro m hm
              exact lookup_names _ t1 node (sound_wellFormed t1 hs1) hl m (by simp [hm])
          rw [hnamesOf mid n hnames, List.isPrefixOf_iff_prefix]
          exact hpre)
        q
      obtain ⟨hbad, hgood⟩ := hcomb
      have hunfold : (underStatic goos goarch q = true ∨
          (∃ mid rest, q = "src".toList :: (mid ++ "testdata".toList :: rest) ∧
            kindAt t ("src".toList :: (mid ++ ["testdata".toList])) = some true) ∨
          (∃ mid n, q = "src".toList :: (mid ++ [n]) ∧
            HasSuffix n "_test.go".toList = true ∧ kindAt t q = some false)) ↔
          (underStatic goos goarch q = true ∨ underTestdata t q ∨ isTestFile t q) := Iff.rfl
      rw [hunfold] at hbad hgood
      by_cases hb : underStatic goos goarch q = true ∨ underTestdata t q ∨ isTestFile t q
      · rw [hbad hb]
        constructor
        · constructor
          · intro h; simp at h
          · rintro ⟨_, h1, h2, h3⟩
            rcases hb with hb | hb | hb
            · rw [hb] at h1; exact absurd h1 (by simp)
            · exact absurd hb h2
            · exact absurd hb h3
        · intro h; simp at h
      · rw [hgood hb]
        simp only [not_or] at hb
        constructor
        · constructor
          · intro h
            exact ⟨h, by simpa using hb.1, hb.2.1, hb.2.2⟩
          · intro h; exact h.1
        · intro _; rfl

/-! ## Runs on the tree file system -/

theorem existing_destination_exit_witness :
    (main (sampleHost sampleBuilt) sampleInvocation
        { tree := some (.dir "go".toList []), locked := [] }).status = 1 ∧
      (main (sampleHost sampleBuilt) sampleInvocation
        { tree := some (.dir "go".toList []), locked := [] }).world.stderr
        = "destination go already exists; won't overwrite.\n".toList ∧
      (main (sampleHost sampleBuilt) sampleInvocation
        { tree := some (.dir "go".toList []), locked := [] }).world.trace
        = [.stat "go".toList] ∧
      (main (sampleHost sampleBuilt)
        { sampleInvocation with args := ["go".toList, "extra".toList] } emptyFS).status = 2 :=
  have h1 := (existing_destination_exit (sampleHost sampleBuilt) sampleInvocation
    { tree := some (.dir "go".toList []), locked := [] }).1 "go".toList true rfl (by decide!)
  have h2 := (existing_destination_exit (sampleHost sampleBuilt)
    { sampleInvocation with args := ["go".toList, "extra".toList] } emptyFS).2 (by decide)
  ⟨h1.1, h1.2.1, h1.2.2.1, h2.1⟩

theorem removeEach_single {σ : Type} (h : Host σ) (name : List Char) (w : World σ)
    (hok : (osAwareRemoveAll h name w).2 = none) :
    removeEach h [name] w = .ok (osAwareRemoveAll h name w).1 := by
  rw [removeEach]
  rcases hr : osAwareRemoveAll h name w with ⟨w1, _ | err⟩
  · rfl
  · rw [hr] at hok; simp at hok

theorem static_failure_stops_witness :
    (main (sampleHost gitBuilt) sampleInvocation
        { tree := none, locked := ["go/.gitattributes".toList] }).status = 1 ∧
      (main (sampleHost gitBuilt) sampleInvocation
        { tree := none, locked := ["go/.gitattributes".toList] }).world.stderr
        = "removing go/.gitattributes: permission denied\n".toList :=
  have h := static_failure_stops (sampleHost gitBuilt) sampleInvocation
    { tree := none, locked := ["go/.gitattributes".toList] } "go".toList
    [".git"] (alwaysRemove.drop 2) ".gitattributes" _ "permission denied".toList
    rfl (by decide!) (by decide!) (by decide!) (by decide)
    (removeEach_single (sampleHost gitBuilt) "go/.git".toList _ (by decide!))
    (by decide!)
  ⟨h.1, h.2.2.1⟩

/-- C7 (as stated) fails: when the built tree has no `src`, so that `lstat` of
the scan root `go/src` fails, the walk is made and the run ends with status 0
and nothing on standard error; and so it does when `src` is there and its
listing fails. -/
theorem root_inaccessible_exit_0 :
    (((sampleHost bareBuilt).tree { tree := some bareBuilt, locked := [] }
        "go/src".toList).lstatFails = true ∧
      (main (sampleHost bareBuilt) sampleInvocation emptyFS).status = 0 ∧
      (main (sampleHost bareBuilt) sampleInvocation emptyFS).world.stderr = [] ∧
      Event.walk "go/src".toList
        ∈ (main (sampleHost bareBuilt) sampleInvocation emptyFS).world.trace ∧
      ((main (sampleHost bareBuilt) sampleInvocation emptyFS).world.fs.entry
        ["src".toList]).isNone = true) ∧
    (((sampleHost closedBuilt).tree { tree := some closedBuilt, locked := [] }
        "go/src".toList).failing = true ∧
      (main (sampleHost closedBuilt) sampleInvocation emptyFS).status = 0 ∧
      (main (sampleHost closedBuilt) sampleInvocation emptyFS).world.stderr = [] ∧
      Event.walk "go/src".toList
        ∈ (main (sampleHost closedBuilt) sampleInvocation emptyFS).world.trace) := by
  constructor <;> decide!

theorem prune_frame_witness :
    ∃ t2, (prune (treeHost noShell "linux".toList "amd64".toList "go".toList sampleBuilt) "go".toList
        (startWorld sampleBuilt)).world.fs.tree = some t2 ∧
      kindAt t2 ["doc".toList] = none ∧
      kindAt t2 ["src".toList, "run.bash".toList] = none ∧
      kindAt t2 ["src".toList, "pkg".toList, "foo".toList, "foo_test.go".toList] = none ∧
      kindAt t2 ["src".toList, "pkg".toList, "foo".toList, "testdata".toList] = none ∧
      kindAt t2 ["src".toList, "pkg".toList, "foo".toList, "testdata".toList, "x".toList]
        = none ∧
      kindAt t2 ["src".toList, "pkg".toList, "foo".toList, "foo.go".toList] = some false := by
  obtain ⟨t2, ht2, hq⟩ := prune_frame noShell "linux".toList "amd64".toList "go".toList
    sampleBuilt (fun hw => absurd hw (by decide)) (by decide) (by decide)
    (startWorld sampleBuilt) sampleBuilt rfl (by decide) (by decide) (by decide!)
  have hnone : ∀ q, ¬ ((kindAt sampleBuilt q).isSome = true ∧
      underStatic "linux".toList "amd64".toList q = false ∧
      ¬ underTestdata sampleBuilt q ∧ ¬ isTestFile sampleBuilt q) → kindAt t2 q = none := by
    intro q h
    rcases hk : kindAt t2 q with _ | d
    · rfl
    · exact absurd ((hq q).1.1 (by rw [hk]; rfl)) h
  refine ⟨t2, ht2, ?_, ?_, ?_, ?_, ?_, ?_⟩
  · exact hnone _ (fun h => absurd h.2.1 (by decide))
  · exact hnone _ (fun h => absurd h.2.1 (by decide))
  · exact hnone _ (fun h => h.2.2.2 ⟨["pkg".toList, "foo".toList], "foo_test.go".toList, rfl,
      by decide, by decide⟩)
  · exact hnone _ (fun h => h.2.2.1 ⟨["pkg".toList, "foo".toList], [], rfl, by decide⟩)
  · exact hnone _ (fun h => h.2.2.1 ⟨["pkg".toList, "foo".toList], ["x".toList], rfl,
      by decide⟩)
  · have hkeep : (kindAt t2
        ["src".toList, "pkg".toList, "foo".toList, "foo.go".toList]).isSome = true := by
      apply (hq _).1.2
      refine ⟨by decide, by decide, ?_, ?_⟩
      · rintro ⟨mid, rest, he, _⟩
        have hmem : "testdata".toList ∈ mid ++ "testdata".toList :: rest :=
          List.mem_append_cons_self
        rw [← (List.cons.inj he).2] at hmem
        exact absurd hmem (by decide)
      · rintro ⟨mid, n, he, hs, _⟩
        have hlast := congrArg List.getLast? (List.cons.inj he).2
        rw [List.getLast?_append, List.getLast?_singleton] at hlast
        have hn : n = "foo.go".toList := by
          have : some "foo.go".toList = some n := by simpa using hlast
          exact (Option.some.inj this).symm
        rw [hn] at hs
        exact absurd hs (by decide)
    rw [(hq _).2 hkeep]
    decide

/-- C6 (as stated) fails.  First tree: pruning ends with status 0, and
afterwards the non-directory `src/pkg/locked/a_test.go`, on which `lstat`
fails, and the directory `src/pkg/testdata`, whose listing fails, are still
there: the walk function was handed an error for each and returned nil.
Second tree: every entry can be examined, `doc` and
`src/pkg/foo/bar_test.go` are symbolic links that lead nowhere; `os.Stat`
follows them and reports that the path does not exist, `osAwareRemoveAll`
returns nil without removing anything, pruning ends with status 0 and both
links are still there. -/
theorem matching_entries_survive :
    ((prune (sampleHost unreadableBuilt) "go".toList (startWorld unreadableBuilt)).status = 0 ∧
      ((prune (sampleHost unreadableBuilt) "go".toList
          (startWorld unreadableBuilt)).world.fs.entry
        ["src".toList, "pkg".toList, "testdata".toList]).isSome = true ∧
      underTestdata unreadableBuilt ["src".toList, "pkg".toList, "testdata".toList] ∧
      ((prune (sampleHost unreadableBuilt) "go".toList
          (startWorld unreadableBuilt)).world.fs.entry
        ["src".toList, "pkg".toList, "locked".toList, "a_test.go".toList]).isSome = true ∧
      isTestFile unreadableBuilt
        ["src".toList, "pkg".toList, "locked".toList, "a_test.go".toList]) ∧
    (linkedBuilt.sound = true ∧
      (prune (sampleHost linkedBuilt) "go".toList linkedWorld).status = 0 ∧
      ((prune (sampleHost linkedBuilt) "go".toList linkedWorld).world.fs.entry
        ["doc".toList]).isSome = true ∧
      underStatic "linux".toList "amd64".toList ["doc".toList] = true ∧
      ((prune (sampleHost linkedBuilt) "go".toList linkedWorld).world.fs.entry
        ["src".toList, "pkg".toList, "foo".toList, "bar_test.go".toList]).isSome = true ∧
      isTestFile linkedBuilt
        ["src".toList, "pkg".toList, "foo".toList, "bar_test.go".toList]) :=
  ⟨⟨by decide!, by decide!, ⟨["pkg".toList], [], rfl, by decide⟩, by decide!,
      ⟨["pkg".toList, "locked".toList], "a_test.go".toList, rfl, by decide, by decide⟩⟩,
    ⟨by decide, by decide!, by decide!, by decide, by decide!,
      ⟨["pkg".toList, "foo".toList], "bar_test.go".toList, rfl, by decide, by decide⟩⟩⟩

/-! ### Where the removed paths lie -/

theorem below_ne (c rel : List Char) (h : isRelNames rel = true) : below c rel ≠ c := by
  obtain ⟨h1, h2⟩ := isRelNames_ne rel h
  unfold below
  by_cases hc1 : c = ['/']
  · rw [if_pos hc1, hc1]
    intro heq
    exact h1 (List.cons.inj heq).2
  · by_cases hc2 : c = ['.']
    · rw [if_neg hc1, if_pos hc2, hc2]
      exact h2
    · rw [if_neg hc1, if_neg hc2]
      intro heq
      have hl := congrArg List.length heq
      simp at hl

theorem strictlyUnder_ne (dest p : List Char) (h : StrictlyUnder dest p) :
    p ≠ Clean dest ∧ p ≠ dest := by
  obtain ⟨rel, hrel, rfl⟩ := h
  refine ⟨below_ne _ _ hrel, ?_⟩
  intro heq
  have hC : Clean (below (Clean dest) rel) = below (Clean dest) rel := by
    rw [← Join_rel dest rel hrel]
    exact Clean_Join dest rel (isRelNames_ne rel hrel).1
  have h3 := congrArg Clean heq
  rw [hC] at h3
  exact below_ne _ _ hrel h3

theorem Event.removes_elem (names : List (List Char)) (ev : Event)
    (h : Event.removes names ev = true) : ∃ p ∈ names, Event.removes [p] ev = true := by
  cases ev with
  | stat p =>
    simp only [Event.removes, List.contains, List.elem_eq_mem, decide_eq_true_eq] at h
    exact ⟨p, h, by simp [Event.removes]⟩
  | removeAll p =>
    simp only [Event.removes, List.contains, List.elem_eq_mem, decide_eq_true_eq] at h
    exact ⟨p, h, by simp [Event.removes]⟩
  | walk r => simp [Event.removes] at h
  | run cmd =>
    simp only [Event.removes, List.any_eq_true] at h
    obtain ⟨p, hp, hc⟩ := h
    exact ⟨p, hp, by simp only [Event.removes, List.any_cons, List.any_nil, Bool.or_false]; exact hc⟩

theorem removeEach_error_trace {σ : Type} (h : Host σ) (names : List (List Char)) :
    ∀ (w : World σ) (e : Exit σ), removeEach h names w = .error e →
      ∃ evs, e.world.trace = w.trace ++ evs ∧ ∀ ev ∈ evs, Event.removes names ev = true := by
  induction names with
  | nil =>
    intro w e hw
    simp [removeEach] at hw
  | cons n ns ih =>
    intro w e hw
    rw [removeEach] at hw
    obtain ⟨_, evs, ht, hev⟩ := osAwareRemoveAll_trace h n w
    rcases hr : osAwareRemoveAll h n w with ⟨wa, _ | err⟩
    · rw [hr] at hw ht
      simp only at hw ht
      obtain ⟨evs2, ht2, hev2⟩ := ih wa e hw
      refine ⟨evs ++ evs2, by rw [ht2, ht, List.append_assoc], ?_⟩
      intro ev hmem
      rcases List.mem_append.1 hmem with hm | hm
      · exact Event.removes_mono [n] (n :: ns) (by simp) ev (hev ev hm)
      · exact Event.removes_mono ns (n :: ns) (fun p hp => List.mem_cons_of_mem _ hp) ev
          (hev2 ev hm)
    · rw [hr] at hw ht
      simp only [Except.error.injEq] at hw ht
      subst hw
      refine ⟨evs, ht, ?_⟩
      intro ev hm
      exact Event.removes_mono [n] (n :: ns) (by simp) ev (hev ev hm)

/-- C10: when the platform identifiers contain no slash, no entry of
`alwaysRemove` is empty, absolute or has a `.` or `..` element after the
expansion; every expanded entry joined to the destination lies strictly below
the destination (it is the cleaned destination followed by one or more file
names, so neither the destination itself nor a path outside it); every path
the walk collects lies strictly below `dest/src`, hence below the
destination; and when the listings that the walk meets hold file names, every
call that `prune` makes is the walk of `dest/src` or a call of
`osAwareRemoveAll` for a path strictly below the destination. -/
theorem removed_paths_strictly_under {σ : Type} (h : Host σ) (dest : List Char)
    (hos : '/' ∉ h.goos) (harch : '/' ∉ h.goarch) :
    (∀ pat ∈ alwaysRemove, isRelNames (expand h.goos h.goarch pat.toList) = true) ∧
    (∀ p ∈ staticNames h.goos h.goarch dest,
      StrictlyUnder dest p ∧ p ≠ dest ∧ p ≠ Clean dest) ∧
    (∀ t : Node, t.wellFormed = true → ∀ p ∈ scan (Join [dest, "src".toList]) t,
      StrictlyUnder (Join [dest, "src".toList]) p ∧ p ≠ Join [dest, "src".toList] ∧
      StrictlyUnder dest p ∧ p ≠ dest ∧ p ≠ Clean dest) ∧
    (∀ w : World σ,
      (∀ w1, removeEach h (staticNames h.goos h.goarch dest) w = .ok w1 →
        (h.tree w1.fs (Join [dest, "src".toList])).wellFormed = true) →
      ∃ evs, (prune h dest w).world.trace = w.trace ++ evs ∧
        ∀ ev ∈ evs, ev = .walk (Join [dest, "src".toList]) ∨
          ∃ p, StrictlyUnder dest p ∧ p ≠ dest ∧ Event.removes [p] ev = true) := by
  have hstatic := staticNames_strictlyUnder dest h.goos h.goarch hos harch
  have hwalk : ∀ t : Node, t.wellFormed = true → ∀ p ∈ scan (Join [dest, "src".toList]) t,
      StrictlyUnder (Join [dest, "src".toList]) p ∧ StrictlyUnder dest p := by
    intro t hwf p hp
    obtain ⟨ms, hne, hms, hpeq, _⟩ := scan_form dest t hwf p hp
    have hroot := GoodDir_root dest
    constructor
    · refine ⟨joinSlash ms, isRelNames_joinSlash ms hne hms, ?_⟩
      rw [hpeq, hroot.1, below, if_neg hroot.2.1, if_neg hroot.2.2, flat_eq_joinSlash ms hne]
    · refine ⟨joinSlash ("src".toList :: ms), isRelNames_joinSlash _ (by simp) ?_, ?_⟩
      · intro m hm
        rcases List.mem_cons.1 hm with rfl | hm
        · decide
        · exact hms m hm
      · rw [hpeq, Join_rel dest _ (by decide), below_append, flat_eq_joinSlash ms hne]
        cases ms with
        | nil => exact absurd rfl hne
        | cons m ms => rw [joinSlash_cons]
  have hrootC : Clean (Join [dest, "src".toList]) = Join [dest, "src".toList] :=
    (GoodDir_root dest).1
  refine ⟨fun pat hpat => expand_isRelNames h.goos h.goarch hos harch pat hpat, ?_, ?_, ?_⟩
  · intro p hp
    have hu := hstatic p hp
    exact ⟨hu, (strictlyUnder_ne dest p hu).2, (strictlyUnder_ne dest p hu).1⟩
  · intro t hwf p hp
    obtain ⟨h1, h2⟩ := hwalk t hwf p hp
    refine ⟨h1, ?_, h2, (strictlyUnder_ne dest p h2).2, (strictlyUnder_ne dest p h2).1⟩
    have := (strictlyUnder_ne _ p h1).1
    rwa [hrootC] at this
  · intro w htree
    have key : ∀ names : List (List Char), (∀ p ∈ names, StrictlyUnder dest p) →
        ∀ evs : List Event, (∀ ev ∈ evs, Event.removes names ev = true) →
        ∀ ev ∈ evs, ev = .walk (Join [dest, "src".toList]) ∨
          ∃ p, StrictlyUnder dest p ∧ p ≠ dest ∧ Event.removes [p] ev = true := by
      intro names hn evs hevs ev hev
      obtain ⟨p, hp, hr⟩ := Event.removes_elem names ev (hevs ev hev)
      exact Or.inr ⟨p, hn p hp, (strictlyUnder_ne dest p (hn p hp)).2, hr⟩
    rw [prune_eq]
    rcases hr1 : removeEach h (staticNames h.goos h.goarch dest) w with e | w1
    · obtain ⟨evs, ht, hev⟩ := removeEach_error_trace h _ w e hr1
      exact ⟨evs, ht, key _ hstatic evs hev⟩
    · obtain ⟨_, evs1, ht1, hev1⟩ := removeEach_ok h _ w w1 hr1
      have hscan : ∀ p ∈ scan (Join [dest, "src".toList])
          (h.tree w1.fs (Join [dest, "src".toList])), StrictlyUnder dest p :=
        fun p hp => (hwalk _ (htree w1 hr1) p hp).2
      simp only
      rcases hr2 : removeEach h
          (scan (Join [dest, "src".toList]) (h.tree w1.fs (Join [dest, "src".toList])))
          { w1 with trace := w1.trace ++ [.walk (Join [dest, "src".toList])] } with e | w2
      · obtain ⟨evs2, ht2, hev2⟩ := removeEach_error_trace h _ _ e hr2
        refine ⟨evs1 ++ .walk (Join [dest, "src".toList]) :: evs2, ?_, ?_⟩
        · simp only
          rw [ht2, ht1]
          simp
        · intro ev hmem
          rcases List.mem_append.1 hmem with hm | hm
          · exact key _ hstatic evs1 hev1 ev hm
          · rcases List.mem_cons.1 hm with rfl | hm
            · exact Or.inl rfl
            · exact key _ hscan evs2 hev2 ev hm
      · obtain ⟨_, evs2, ht2, hev2⟩ := removeEach_ok h _ _ w2 hr2
        refine ⟨evs1 ++ .walk (Join [dest, "src".toList]) :: evs2, ?_, ?_⟩
        · simp only
          rw [ht2]
          simp only
          rw [ht1]
          simp
        · intro ev hmem
          rcases List.mem_append.1 hmem with hm | hm
          · exact key _ hstatic evs1 hev1 ev hm
          · rcases List.mem_cons.1 hm with rfl | hm
            · exact Or.inl rfl
            · exact key _ hscan evs2 hev2 ev hm

theorem removed_paths_strictly_under_witness :
    (StrictlyUnder "out/".toList "out/pkg/tool/plan9_386/nm".toList ∧
        "out/pkg/tool/plan9_386/nm".toList ≠ "out/".toList) ∧
      StrictlyUnder "go".toList "go/src/pkg/foo/testdata".toList :=
  ⟨⟨((removed_paths_strictly_under
        (treeHost noShell "plan9".toList "386".toList "out/".toList sampleBuilt) "out/".toList
        (by decide) (by decide)).2.1 _ (by decide)).1,
      ((removed_paths_strictly_under
        (treeHost noShell "plan9".toList "386".toList "out/".toList sampleBuilt) "out/".toList
        (by decide) (by decide)).2.1 _ (by decide)).2.1⟩,
    ((removed_paths_strictly_under
        (treeHost noShell "plan9".toList "386".toList "go".toList sampleBuilt) "go".toList
        (by decide) (by decide)).2.2.1 sampleSrc (by decide) _ (by decide)).2.2.1⟩

/-! ### Removing what is not there, and removing twice -/

end Gostrip
